import Mathlib

/-!
Password generator (`src/script.js`)

A shallow embedding of the algorithmic core of `class PasswordGenerator`:
`validateSettings`, `generatePassword`, `ensureCharacterCount`, `shuffleString`
and `updateStrengthMeter`.

Modelling conventions.

* A JavaScript string is a `List Char`; every character the program produces or
  looks for is ASCII, so one `Char` is one UTF-16 code unit.
* The form fields read by the program (`passwordLength`, the four checkboxes,
  `symbolCount`, `numberCount`) are a record `Settings`; the numeric fields are
  natural numbers.
* `Math.random()` is an explicit random source: an infinite stream of raw natural
  numbers, one consumed per call.  `Math.floor(Math.random() * n)` is an integer
  of `[0, n)` (and `0` when `n = 0`); on the raw value `r` it is `r % n`, so every
  integer of `[0, n)` is a possible outcome (take `r < n`).
* JavaScript tolerates out-of-range accesses silently (`charAt` yields `""`, an
  array write past the end grows the array).  The embedding is instrumented: an
  out-of-range access makes the function return `none`, so that "the result is
  `some _`" says that no such access happened.
-/

namespace PasswordGenerator

/-! ## Data model -/

/-- The field `this.characterSets.uppercase`. -/
def characterSets.uppercase : List Char := "ABCDEFGHIJKLMNOPQRSTUVWXYZ".toList

/-- The field `this.characterSets.lowercase`. -/
def characterSets.lowercase : List Char := "abcdefghijklmnopqrstuvwxyz".toList

/-- The field `this.characterSets.numbers`. -/
def characterSets.numbers : List Char := "0123456789".toList

/-- The field `this.characterSets.symbols`. -/
def characterSets.symbols : List Char := "!@#$%^&*()_+-=[]\x7b\x7d|;:,.<>?".toList

/-- The form state read (and partly rewritten) by the generator. -/
structure Settings where
  passwordLength : Nat
  uppercase : Bool
  lowercase : Bool
  numbers : Bool
  symbols : Bool
  symbolCount : Nat
  numberCount : Nat
  deriving DecidableEq, Repr

/-- The random source behind `Math.random()`: a stream of raw values. -/
abbrev RandomSource := Stream' Nat

/-- The value of `Math.floor(Math.random() * n)` on the next raw value of the source. -/
def floorRandom (rnd : RandomSource) (n : Nat) : Nat :=
  if n = 0 then 0 else rnd.head % n

/-- The four classes written to `strengthText` / `strengthFill`. -/
inductive StrengthLabel where
  | veryStrong
  | strong
  | medium
  | weak
  deriving DecidableEq, Repr

/-- What `updateStrengthMeter` computes: the local `score` and the label it displays. -/
structure StrengthMeter where
  score : Nat
  strengthText : StrengthLabel
  deriving DecidableEq, Repr

/-- What `generatePassword` leaves on the page. -/
structure Display where
  passwordOutput : List Char
  strength : StrengthMeter
  deriving DecidableEq, Repr

/-! ## Operations -/

/-- `validateSettings()`: clamp the two counts to `Math.min(length, 10)` and tick
`lowercase` when no checkbox is ticked. -/
def validateSettings (ui : Settings) : Settings :=
  let length := ui.passwordLength
  let symbolCount := ui.symbolCount
  let numberCount := ui.numberCount
  let maxSpecialChars := min length 10
  let ui := if symbolCount > maxSpecialChars then { ui with symbolCount := maxSpecialChars } else ui
  let ui := if numberCount > maxSpecialChars then { ui with numberCount := maxSpecialChars } else ui
  let hasCharacterType := ui.uppercase || ui.lowercase || ui.numbers || ui.symbols
  if !hasCharacterType then { ui with lowercase := true } else ui

/-- The pool as concatenated on lines 116-122 of `generatePassword`, before the fallback. -/
def selectedChars (ui : Settings) : List Char :=
  let availableChars : List Char := []
  let availableChars := if ui.uppercase then availableChars ++ characterSets.uppercase else availableChars
  let availableChars := if ui.lowercase then availableChars ++ characterSets.lowercase else availableChars
  let availableChars := if ui.numbers then availableChars ++ characterSets.numbers else availableChars
  let availableChars := if ui.symbols then availableChars ++ characterSets.symbols else availableChars
  availableChars

/-- The pool after the fallback `if (!availableChars) availableChars = lowercase`
(lines 124-127). -/
def availableChars (ui : Settings) : List Char :=
  let availableChars := selectedChars ui
  if availableChars.isEmpty then characterSets.lowercase else availableChars

/-- The base loop `for (let i = 0; i < length; i++) password += availableChars.charAt(...)`,
by recursion on the number of iterations left. -/
def basePassword (availableChars : List Char) :
    Nat → RandomSource → List Char → Option (List Char × RandomSource)
  | 0, rnd, password => some (password, rnd)
  | n + 1, rnd, password =>
    match availableChars[floorRandom rnd availableChars.length]? with
    | none => none
    | some c => basePassword availableChars n rnd.tail (password ++ [c])

/-- The replacement loop of `ensureCharacterCount` (lines 176-182), by recursion on
the number of iterations left.  Each iteration draws `randomIndex`, then `randomChar`,
then writes `passwordArray[randomIndex] = randomChar`. -/
def ensureLoop (characterSet : List Char) :
    Nat → RandomSource → List Char → Option (List Char × RandomSource)
  | 0, rnd, passwordArray => some (passwordArray, rnd)
  | n + 1, rnd, passwordArray =>
    let randomIndex := floorRandom rnd passwordArray.length
    match characterSet[floorRandom rnd.tail characterSet.length]? with
    | none => none
    | some randomChar =>
      if randomIndex < passwordArray.length then
        ensureLoop characterSet n rnd.tail.tail (passwordArray.set randomIndex randomChar)
      else none

/-- `ensureCharacterCount(password, characterSet, requiredCount)`.  The loop condition
`i < charsToAdd && i < nonRequiredChars.length` does not change during the loop, so it
runs `min charsToAdd nonRequiredChars.length` times. -/
def ensureCharacterCount (rnd : RandomSource) (password characterSet : List Char)
    (requiredCount : Nat) : Option (List Char × RandomSource) :=
  let passwordArray := password
  let currentCount := (passwordArray.filter (fun char => characterSet.contains char)).length
  if currentCount ≥ requiredCount then some (password, rnd)
  else
    let charsToAdd := requiredCount - currentCount
    let nonRequiredChars := passwordArray.filter (fun char => !characterSet.contains char)
    ensureLoop characterSet (min charsToAdd nonRequiredChars.length) rnd passwordArray

/-- The loop of `shuffleString`: the first argument is the loop variable `i`, running
down to `1`; each iteration draws `j` in `[0, i]` and swaps `array[i]` and `array[j]`. -/
def shuffleLoop : Nat → RandomSource → List Char → Option (List Char × RandomSource)
  | 0, rnd, array => some (array, rnd)
  | i + 1, rnd, array =>
    let j := floorRandom rnd (i + 1 + 1)
    match array[i + 1]?, array[j]? with
    | some ai, some aj => shuffleLoop i rnd.tail ((array.set (i + 1) aj).set j ai)
    | _, _ => none

/-- `shuffleString(str)`: Fisher-Yates from `array.length - 1` down to `1`. -/
def shuffleString (rnd : RandomSource) (str : List Char) : Option (List Char × RandomSource) :=
  shuffleLoop (str.length - 1) rnd str

/-- `updateStrengthMeter(password)`. -/
def updateStrengthMeter (password : List Char) : StrengthMeter :=
  let score := 0
  let length := password.length
  let score := if length ≥ 12 then score + 2 else if length ≥ 8 then score + 1 else score
  let score :=
    if characterSets.uppercase.any (fun char => password.contains char) then score + 1 else score
  let score :=
    if characterSets.lowercase.any (fun char => password.contains char) then score + 1 else score
  let score :=
    if characterSets.numbers.any (fun char => password.contains char) then score + 1 else score
  let score :=
    if characterSets.symbols.any (fun char => password.contains char) then score + 1 else score
  if score ≥ 5 then ⟨score, .veryStrong⟩
  else if score ≥ 4 then ⟨score, .strong⟩
  else if score ≥ 3 then ⟨score, .medium⟩
  else ⟨score, .weak⟩

/-- The enforcement part of `generatePassword` (lines 136-151): the Symbols pass, then
the Digits pass, each only when its checkbox is ticked and its count is positive. -/
def enforceCounts (ui : Settings) (rnd : RandomSource) (password : List Char) :
    Option (List Char × RandomSource) :=
  let symbolCount := ui.symbolCount
  let numberCount := ui.numberCount
  match (if ui.symbols && symbolCount > 0
      then ensureCharacterCount rnd password characterSets.symbols symbolCount
      else some (password, rnd)) with
  | none => none
  | some (password, rnd) =>
    if ui.numbers && numberCount > 0
    then ensureCharacterCount rnd password characterSets.numbers numberCount
    else some (password, rnd)

/-- `generatePassword()`: validate, build the pool, draw the base password, enforce the
two counts, shuffle, display the password and its strength. -/
def generatePassword (ui : Settings) (rnd : RandomSource) : Option Display :=
  let ui := validateSettings ui
  let length := ui.passwordLength
  match basePassword (availableChars ui) length rnd [] with
  | none => none
  | some (password, rnd) =>
    match enforceCounts ui rnd password with
    | none => none
    | some (password, rnd) =>
      match shuffleString rnd password with
      | none => none
      | some (password, _) => some ⟨password, updateStrengthMeter password⟩


/-! ## Reference definitions from the specification -/

/-- The score as the specification words it (section 4.2): 2, 1 or 0 for the length, plus
one for each of: an uppercase letter `A`-`Z`, a lowercase letter `a`-`z`, a digit `0`-`9`,
a character of the Symbols alphabet. -/
def referenceScore (p : List Char) : Nat :=
  (if p.length ≥ 12 then 2 else if p.length ≥ 8 then 1 else 0)
    + (if p.any (fun c => decide ('A' ≤ c ∧ c ≤ 'Z')) then 1 else 0)
    + (if p.any (fun c => decide ('a' ≤ c ∧ c ≤ 'z')) then 1 else 0)
    + (if p.any (fun c => decide ('0' ≤ c ∧ c ≤ '9')) then 1 else 0)
    + (if p.any (fun c => decide (c ∈ characterSets.symbols)) then 1 else 0)

/-- The draw sequences of the shuffle loop started at `i`: a draw `j` in `[0, i]` for `i`,
then one in `[0, i - 1]` for `i - 1`, and so on down to the loop variable `1`. -/
def drawSequences : Nat → List (List Nat)
  | 0 => [[]]
  | i + 1 => (List.range (i + 2)).flatMap (fun j => (drawSequences i).map (fun js => j :: js))

/-- The order of the four labels, weakest first: Weak, Medium, Strong, Very Strong. -/
def labelRank : StrengthLabel → Nat
  | .weak => 0
  | .medium => 1
  | .strong => 2
  | .veryStrong => 3

/-- The draws made by the shuffle loop started at `i` on a random source: the value of
`Math.floor(Math.random() * (i + 1))` for `i`, then that of `Math.floor(Math.random() * i)`
on the next value for `i - 1`, and so on down to the loop variable `1`. -/
def shuffleDraws : Nat → RandomSource → List Nat
  | 0, _ => []
  | i + 1, rnd => floorRandom rnd (i + 1 + 1) :: shuffleDraws i rnd.tail

/-- The sequences of `k` raw values below `M`: the outcomes of a random source whose
values are uniform on `[0, M)`, as far as `k` calls of `Math.random()` see them. -/
def rawSequences (M : Nat) : Nat → List (List Nat)
  | 0 => [[]]
  | k + 1 => (List.range M).flatMap (fun r => (rawSequences M k).map (fun rs => r :: rs))

/-! ## Auxiliary facts -/

theorem floorRandom_lt (rnd : RandomSource) {n : Nat} (h : 0 < n) : floorRandom rnd n < n := by
  unfold floorRandom
  rw [if_neg (by omega)]
  exact Nat.mod_lt _ h

theorem validateSettings_passwordLength (ui : Settings) :
    (validateSettings ui).passwordLength = ui.passwordLength := by
  unfold validateSettings
  simp only []
  split_ifs <;> rfl

theorem validateSettings_symbolCount (ui : Settings) :
    (validateSettings ui).symbolCount = min ui.symbolCount (min ui.passwordLength 10) := by
  unfold validateSettings
  simp only []
  split_ifs <;> (try dsimp only) <;> omega

theorem validateSettings_numberCount (ui : Settings) :
    (validateSettings ui).numberCount = min ui.numberCount (min ui.passwordLength 10) := by
  unfold validateSettings
  simp only []
  split_ifs <;> (try dsimp only) <;> omega

theorem validateSettings_uppercase (ui : Settings) :
    (validateSettings ui).uppercase = ui.uppercase := by
  unfold validateSettings
  simp only []
  split_ifs <;> rfl

theorem validateSettings_numbers (ui : Settings) :
    (validateSettings ui).numbers = ui.numbers := by
  unfold validateSettings
  simp only []
  split_ifs <;> rfl

theorem validateSettings_symbols (ui : Settings) :
    (validateSettings ui).symbols = ui.symbols := by
  unfold validateSettings
  simp only []
  split_ifs <;> rfl

theorem validateSettings_lowercase (ui : Settings) :
    (validateSettings ui).lowercase =
      (ui.lowercase || !(ui.uppercase || ui.lowercase || ui.numbers || ui.symbols)) := by
  unfold validateSettings
  simp only []
  split_ifs <;> simp_all

theorem validateSettings_hasCharacterType (ui : Settings) :
    ((validateSettings ui).uppercase || (validateSettings ui).lowercase ||
      (validateSettings ui).numbers || (validateSettings ui).symbols) = true := by
  rw [validateSettings_uppercase, validateSettings_lowercase, validateSettings_numbers,
    validateSettings_symbols]
  cases ui.uppercase <;> cases ui.lowercase <;> cases ui.numbers <;> cases ui.symbols <;> rfl

theorem basePassword_spec {pool : List Char} (hpool : pool ≠ []) :
    ∀ (n : Nat) (rnd : RandomSource) (password : List Char),
      ∃ p, basePassword pool n rnd password = some (p, rnd.drop n) ∧
        p.length = password.length + n ∧ ∀ c ∈ p, c ∈ password ∨ c ∈ pool := by
  intro n
  induction n with
  | zero => intro rnd password; exact ⟨password, rfl, rfl, fun c hc => Or.inl hc⟩
  | succ n ih =>
    intro rnd password
    have hlt : floorRandom rnd pool.length < pool.length :=
      floorRandom_lt rnd (List.length_pos.mpr hpool)
    obtain ⟨p, hp, hlen, hmem⟩ := ih rnd.tail (password ++ [pool[floorRandom rnd pool.length]])
    refine ⟨p, ?_, ?_, ?_⟩
    · simp only [basePassword, List.getElem?_eq_getElem hlt]
      rw [hp]
      rfl
    · rw [hlen, List.length_append, List.length_singleton]
      omega
    · intro c hc
      rcases hmem c hc with h | h
      · rcases List.mem_append.mp h with h | h
        · exact Or.inl h
        · rw [List.mem_singleton] at h
          exact Or.inr (h ▸ List.getElem_mem _)
      · exact Or.inr h

theorem ensureLoop_spec {characterSet : List Char} (hset : characterSet ≠ []) :
    ∀ (n : Nat) (rnd : RandomSource) (passwordArray : List Char),
      (n = 0 ∨ passwordArray ≠ []) →
      ∃ p, ensureLoop characterSet n rnd passwordArray = some (p, rnd.drop (2 * n)) ∧
        p.length = passwordArray.length ∧
        (∀ c ∈ p, c ∈ passwordArray ∨ c ∈ characterSet) ∧
        passwordArray.countP (fun char => characterSet.contains char) ≤
          p.countP (fun char => characterSet.contains char) ∧
        (0 < n → 0 < p.countP (fun char => characterSet.contains char)) := by
  intro n
  induction n with
  | zero =>
    intro rnd passwordArray _
    exact ⟨passwordArray, rfl, rfl, fun c hc => Or.inl hc, le_refl _, fun h => absurd h (by omega)⟩
  | succ n ih =>
    intro rnd passwordArray hne
    have hne : passwordArray ≠ [] := by
      rcases hne with h | h
      · omega
      · exact h
    have hidx : floorRandom rnd passwordArray.length < passwordArray.length :=
      floorRandom_lt rnd (List.length_pos.mpr hne)
    have hch : floorRandom rnd.tail characterSet.length < characterSet.length :=
      floorRandom_lt rnd.tail (List.length_pos.mpr hset)
    have hin : characterSet.contains characterSet[floorRandom rnd.tail characterSet.length] = true := by
      simp [List.getElem_mem]
    have hne2 : passwordArray.set (floorRandom rnd passwordArray.length)
        characterSet[floorRandom rnd.tail characterSet.length] ≠ [] := by
      intro h
      have := congrArg List.length h
      rw [List.length_set] at this
      exact hne (List.length_eq_zero.mp this)
    obtain ⟨p, hp, hlen, hmem, hcnt, _⟩ := ih rnd.tail.tail _ (Or.inr hne2)
    have hset_cnt := List.countP_set (fun char => characterSet.contains char) passwordArray
      (floorRandom rnd passwordArray.length)
      characterSet[floorRandom rnd.tail characterSet.length] hidx
    simp only [hin, if_true] at hset_cnt
    refine ⟨p, ?_, ?_, ?_, ?_, ?_⟩
    · simp only [ensureLoop, List.getElem?_eq_getElem hch, if_pos hidx]
      rw [hp]
      rfl
    · rw [hlen, List.length_set]
    · intro c hc
      rcases hmem c hc with h | h
      · rcases List.mem_or_eq_of_mem_set h with h | h
        · exact Or.inl h
        · exact Or.inr (h ▸ List.getElem_mem _)
      · exact Or.inr h
    · split at hset_cnt <;> omega
    · intro _
      omega

theorem ensureCharacterCount_spec {characterSet : List Char} (hset : characterSet ≠ [])
    (rnd : RandomSource) (password : List Char) (requiredCount : Nat) :
    ∃ p r, ensureCharacterCount rnd password characterSet requiredCount = some (p, r) ∧
      p.length = password.length ∧
      (∀ c ∈ p, c ∈ password ∨ c ∈ characterSet) ∧
      password.countP (fun char => characterSet.contains char) ≤
        p.countP (fun char => characterSet.contains char) ∧
      (0 < requiredCount → password ≠ [] →
        0 < p.countP (fun char => characterSet.contains char)) := by
  unfold ensureCharacterCount
  simp only [← List.countP_eq_length_filter]
  split_ifs with hge
  · exact ⟨password, rnd, rfl, rfl, fun c hc => Or.inl hc, le_refl _, fun h _ => by omega⟩
  · have hsum := List.length_eq_countP_add_countP (fun char => characterSet.contains char) password
    by_cases hne : password = []
    · subst hne
      refine ⟨[], rnd, ?_, rfl, fun c hc => Or.inl hc, le_refl _, fun _ h => absurd rfl h⟩
      simp [ensureLoop]
    · obtain ⟨p, hp, hlen, hmem, hcnt, hpos⟩ := ensureLoop_spec hset
        (min (requiredCount - password.countP (fun char => characterSet.contains char))
          (password.countP (fun char => !characterSet.contains char))) rnd password (Or.inr hne)
      refine ⟨p, _, hp, hlen, hmem, hcnt, fun _ _ => ?_⟩
      have hl : 0 < password.length := List.length_pos.mpr hne
      by_cases hz : 0 < password.countP (fun char => characterSet.contains char)
      · omega
      · apply hpos
        have he : password.countP (fun a => decide ¬characterSet.contains a = true) =
            password.countP (fun char => !characterSet.contains char) := by
          congr 1
          funext a
          cases characterSet.contains a <;> rfl
        omega

theorem swap_perm (array : List Char) {i j : Nat} (hi : i < array.length)
    (hj : j < array.length) : ((array.set i array[j]).set j array[i]).Perm array := by
  rw [List.perm_iff_count]
  intro a
  have hj2 : j < (array.set i array[j]).length := by rw [List.length_set]; exact hj
  rw [List.count_set _ _ _ _ hj2, List.count_set _ _ _ _ hi]
  have hget : (array.set i array[j])[j] = array[j] := by
    rw [List.getElem_set]
    split_ifs <;> rfl
  rw [hget]
  have h1 := List.boole_getElem_le_count a array i hi
  have h2 := List.boole_getElem_le_count a array j hj
  split_ifs at * <;> omega

theorem shuffleLoop_spec :
    ∀ (i : Nat) (rnd : RandomSource) (array : List Char), (i < array.length ∨ i = 0) →
      ∃ p, shuffleLoop i rnd array = some (p, rnd.drop i) ∧ p.Perm array := by
  intro i
  induction i with
  | zero => intro rnd array _; exact ⟨array, rfl, List.Perm.refl _⟩
  | succ i ih =>
    intro rnd array h
    have hi : i + 1 < array.length := by omega
    have hj : floorRandom rnd (i + 1 + 1) < array.length := by
      have := floorRandom_lt rnd (show 0 < i + 1 + 1 by omega)
      omega
    obtain ⟨p, hp, hperm⟩ := ih rnd.tail
      ((array.set (i + 1) array[floorRandom rnd (i + 1 + 1)]).set (floorRandom rnd (i + 1 + 1))
        array[i + 1])
      (Or.inl (by rw [List.length_set, List.length_set]; omega))
    refine ⟨p, ?_, hperm.trans (swap_perm array hi hj)⟩
    simp only [shuffleLoop, List.getElem?_eq_getElem hi, List.getElem?_eq_getElem hj]
    rw [hp]
    rfl

theorem shuffleString_spec (rnd : RandomSource) (str : List Char) :
    ∃ p, shuffleString rnd str = some (p, rnd.drop (str.length - 1)) ∧ p.Perm str := by
  unfold shuffleString
  apply shuffleLoop_spec
  omega

theorem characterSets_symbols_ne_nil : characterSets.symbols ≠ [] := by decide

theorem characterSets_numbers_ne_nil : characterSets.numbers ≠ [] := by decide

theorem characterSets_lowercase_ne_nil : characterSets.lowercase ≠ [] := by decide

theorem availableChars_ne_nil (ui : Settings) : availableChars ui ≠ [] := by
  unfold availableChars
  simp only []
  split_ifs with h
  · exact characterSets_lowercase_ne_nil
  · intro h2
    rw [h2] at h
    exact h rfl

theorem mem_selectedChars (ui : Settings) (c : Char) :
    c ∈ selectedChars ui ↔
      (ui.uppercase = true ∧ c ∈ characterSets.uppercase) ∨
      (ui.lowercase = true ∧ c ∈ characterSets.lowercase) ∨
      (ui.numbers = true ∧ c ∈ characterSets.numbers) ∨
      (ui.symbols = true ∧ c ∈ characterSets.symbols) := by
  unfold selectedChars
  cases ui.uppercase <;> cases ui.lowercase <;> cases ui.numbers <;> cases ui.symbols <;>
    simp [or_assoc]

theorem selectedChars_validateSettings_ne_nil (ui : Settings) :
    selectedChars (validateSettings ui) ≠ [] := by
  have h := validateSettings_hasCharacterType ui
  simp only [Bool.or_eq_true] at h
  rcases h with ((h | h) | h) | h
  · exact List.ne_nil_of_mem ((mem_selectedChars _ 'A').mpr (Or.inl ⟨h, by decide⟩))
  · exact List.ne_nil_of_mem ((mem_selectedChars _ 'a').mpr (Or.inr (Or.inl ⟨h, by decide⟩)))
  · exact List.ne_nil_of_mem
      ((mem_selectedChars _ '0').mpr (Or.inr (Or.inr (Or.inl ⟨h, by decide⟩))))
  · exact List.ne_nil_of_mem
      ((mem_selectedChars _ '!').mpr (Or.inr (Or.inr (Or.inr ⟨h, by decide⟩))))

theorem availableChars_validateSettings (ui : Settings) :
    availableChars (validateSettings ui) = selectedChars (validateSettings ui) := by
  unfold availableChars
  simp only []
  rw [if_neg]
  intro h
  exact selectedChars_validateSettings_ne_nil ui (List.isEmpty_iff.mp h)

theorem enforceCounts_spec (ui : Settings) (rnd : RandomSource) (password : List Char) :
    ∃ p r, enforceCounts ui rnd password = some (p, r) ∧
      p.length = password.length ∧
      (∀ c ∈ p, c ∈ password ∨ (ui.symbols = true ∧ c ∈ characterSets.symbols) ∨
        (ui.numbers = true ∧ c ∈ characterSets.numbers)) ∧
      (ui.numbers = true → 0 < ui.numberCount → password ≠ [] →
        0 < p.countP (fun char => characterSets.numbers.contains char)) ∧
      (ui.symbols = true → 0 < ui.symbolCount → password ≠ [] →
        (ui.numbers && decide (ui.numberCount > 0)) = false →
        0 < p.countP (fun char => characterSets.symbols.contains char)) := by
  unfold enforceCounts
  simp only []
  by_cases hs : (ui.symbols && decide (ui.symbolCount > 0)) = true
  · obtain ⟨p1, r1, h1, hlen1, hmem1, _, hpos1⟩ :=
      ensureCharacterCount_spec characterSets_symbols_ne_nil rnd password ui.symbolCount
    rw [if_pos hs, h1]
    simp only [Bool.and_eq_true, decide_eq_true_eq] at hs
    by_cases hn : (ui.numbers && decide (ui.numberCount > 0)) = true
    · obtain ⟨p2, r2, h2, hlen2, hmem2, _, hpos2⟩ :=
        ensureCharacterCount_spec characterSets_numbers_ne_nil r1 p1 ui.numberCount
      simp only [if_pos hn, h2]
      simp only [Bool.and_eq_true, decide_eq_true_eq] at hn
      refine ⟨p2, r2, rfl, by rw [hlen2, hlen1], ?_, ?_, ?_⟩
      · intro c hc
        rcases hmem2 c hc with h | h
        · rcases hmem1 c h with h | h
          · exact Or.inl h
          · exact Or.inr (Or.inl ⟨hs.1, h⟩)
        · exact Or.inr (Or.inr ⟨hn.1, h⟩)
      · intro _ hpos hne
        apply hpos2 hpos
        intro h
        rw [h] at hlen1
        exact hne (List.length_eq_zero.mp hlen1.symm)
      · intro _ _ _ hf
        simp [hn.1, hn.2] at hf
    · simp only [if_neg hn]
      refine ⟨p1, r1, rfl, hlen1, ?_, ?_, ?_⟩
      · intro c hc
        rcases hmem1 c hc with h | h
        · exact Or.inl h
        · exact Or.inr (Or.inl ⟨hs.1, h⟩)
      · intro h1 h2 _
        simp [h1, h2] at hn
      · intro _ hpos hne _
        exact hpos1 hpos hne
  · rw [if_neg hs]
    simp only []
    by_cases hn : (ui.numbers && decide (ui.numberCount > 0)) = true
    · obtain ⟨p2, r2, h2, hlen2, hmem2, _, hpos2⟩ :=
        ensureCharacterCount_spec characterSets_numbers_ne_nil rnd password ui.numberCount
      simp only [if_pos hn, h2]
      simp only [Bool.and_eq_true, decide_eq_true_eq] at hn
      refine ⟨p2, r2, rfl, hlen2, ?_, ?_, ?_⟩
      · intro c hc
        rcases hmem2 c hc with h | h
        · exact Or.inl h
        · exact Or.inr (Or.inr ⟨hn.1, h⟩)
      · intro _ hpos hne
        exact hpos2 hpos hne
      · intro _ _ _ hf
        simp [hn.1, hn.2] at hf
    · simp only [if_neg hn]
      refine ⟨password, rnd, rfl, rfl, fun c hc => Or.inl hc, ?_, ?_⟩
      · intro h1 h2 _
        simp [h1, h2] at hn
      · intro h1 h2 _ _
        simp [h1, h2] at hs

theorem generatePassword_stages (ui : Settings) (rnd : RandomSource) :
    ∃ base r1 enforced r2 final r3,
      basePassword (availableChars (validateSettings ui)) ui.passwordLength rnd [] =
        some (base, r1) ∧
      enforceCounts (validateSettings ui) r1 base = some (enforced, r2) ∧
      shuffleString r2 enforced = some (final, r3) ∧
      generatePassword ui rnd = some ⟨final, updateStrengthMeter final⟩ := by
  obtain ⟨base, hb, -, -⟩ := basePassword_spec (availableChars_ne_nil (validateSettings ui))
    ui.passwordLength rnd []
  obtain ⟨enforced, r2, he, -⟩ := enforceCounts_spec (validateSettings ui)
    (rnd.drop ui.passwordLength) base
  obtain ⟨final, hf, -⟩ := shuffleString_spec r2 enforced
  refine ⟨base, _, enforced, r2, final, _, hb, he, hf, ?_⟩
  unfold generatePassword
  simp only [validateSettings_passwordLength, hb, he, hf]

theorem generatePassword_facts (ui : Settings) (rnd : RandomSource) :
    ∃ final, generatePassword ui rnd = some ⟨final, updateStrengthMeter final⟩ ∧
      final.length = ui.passwordLength ∧
      (∀ c ∈ final, c ∈ selectedChars (validateSettings ui)) ∧
      (ui.numbers = true → 0 < ui.numberCount → 0 < ui.passwordLength →
        0 < final.countP (fun char => characterSets.numbers.contains char)) ∧
      (ui.symbols = true → 0 < ui.symbolCount → 0 < ui.passwordLength →
        (ui.numbers = false ∨ ui.numberCount = 0) →
        0 < final.countP (fun char => characterSets.symbols.contains char)) := by
  obtain ⟨base, hb, hblen, hbmem⟩ := basePassword_spec
    (availableChars_ne_nil (validateSettings ui)) ui.passwordLength rnd []
  obtain ⟨enforced, r2, he, helen, hemem, hdig, hsym⟩ := enforceCounts_spec (validateSettings ui)
    (rnd.drop ui.passwordLength) base
  obtain ⟨final, hf, hperm⟩ := shuffleString_spec r2 enforced
  have hbne : 0 < ui.passwordLength → base ≠ [] := by
    intro h hnil
    rw [hnil] at hblen
    simp at hblen
    omega
  rw [validateSettings_numbers, validateSettings_numberCount] at hdig
  rw [validateSettings_symbols, validateSettings_symbolCount, validateSettings_numbers,
    validateSettings_numberCount] at hsym
  refine ⟨final, ?_, ?_, ?_, ?_, ?_⟩
  · unfold generatePassword
    simp only [validateSettings_passwordLength, hb, he, hf]
  · rw [hperm.length_eq, helen, hblen]
    simp
  · intro c hc
    rcases hemem c (hperm.mem_iff.mp hc) with h | h | h
    · rcases hbmem c h with h | h
      · simp at h
      · rw [availableChars_validateSettings] at h
        exact h
    · exact (mem_selectedChars _ c).mpr (Or.inr (Or.inr (Or.inr h)))
    · exact (mem_selectedChars _ c).mpr (Or.inr (Or.inr (Or.inl h)))
  · intro h1 h2 h3
    rw [hperm.countP_eq]
    exact hdig h1 (by omega) (hbne h3)
  · intro h1 h2 h3 h4
    rw [hperm.countP_eq]
    apply hsym h1 (by omega) (hbne h3)
    rcases h4 with h4 | h4
    · simp [h4]
    · simp [h4]

theorem symbols_disjoint : ∀ c ∈ characterSets.symbols,
    c ∉ characterSets.uppercase ∧ c ∉ characterSets.lowercase ∧ c ∉ characterSets.numbers := by
  decide

theorem numbers_disjoint : ∀ c ∈ characterSets.numbers,
    c ∉ characterSets.uppercase ∧ c ∉ characterSets.lowercase ∧ c ∉ characterSets.symbols := by
  decide

/-! ## The claims -/

/-- Claim C1 (length invariant).  For every form state and every outcome of the random
source, `generatePassword` produces a password, and that password has exactly
`passwordLength` characters. -/
theorem generatePassword_length (ui : Settings) (rnd : RandomSource) :
    ∃ out, generatePassword ui rnd = some out ∧
      out.passwordOutput.length = ui.passwordLength := by
  obtain ⟨final, h, hlen, -⟩ := generatePassword_facts ui rnd
  exact ⟨_, h, hlen⟩

/-- Claim C2 (alphabet closure).  Every character of the generated password belongs to the
alphabet of a class that is ticked after `validateSettings`; `validateSettings` leaves the
four checkboxes alone except that it ticks `lowercase` when none is ticked; and the
password holds no symbol when `symbols` is unticked and no digit when `numbers` is
unticked. -/
theorem generatePassword_alphabet_closure (ui : Settings) (rnd : RandomSource) :
    ∃ out, generatePassword ui rnd = some out ∧
      (∀ c ∈ out.passwordOutput,
        ((validateSettings ui).uppercase = true ∧ c ∈ characterSets.uppercase) ∨
        ((validateSettings ui).lowercase = true ∧ c ∈ characterSets.lowercase) ∨
        ((validateSettings ui).numbers = true ∧ c ∈ characterSets.numbers) ∨
        ((validateSettings ui).symbols = true ∧ c ∈ characterSets.symbols)) ∧
      (validateSettings ui).uppercase = ui.uppercase ∧
      (validateSettings ui).numbers = ui.numbers ∧
      (validateSettings ui).symbols = ui.symbols ∧
      (validateSettings ui).lowercase =
        (ui.lowercase || !(ui.uppercase || ui.lowercase || ui.numbers || ui.symbols)) ∧
      (ui.symbols = false → ∀ c ∈ out.passwordOutput, c ∉ characterSets.symbols) ∧
      (ui.numbers = false → ∀ c ∈ out.passwordOutput, c ∉ characterSets.numbers) := by
  obtain ⟨final, h, -, hmem, -⟩ := generatePassword_facts ui rnd
  have hcl := fun c hc => (mem_selectedChars (validateSettings ui) c).mp (hmem c hc)
  refine ⟨_, h, hcl, validateSettings_uppercase ui, validateSettings_numbers ui,
    validateSettings_symbols ui, validateSettings_lowercase ui, ?_, ?_⟩
  · intro hoff c hc hin
    have hd := symbols_disjoint c hin
    rcases hcl c hc with h | h | h | h
    · exact hd.1 h.2
    · exact hd.2.1 h.2
    · exact hd.2.2 h.2
    · rw [validateSettings_symbols, hoff] at h
      exact absurd h.1 (by decide)
  · intro hoff c hc hin
    have hd := numbers_disjoint c hin
    rcases hcl c hc with h | h | h | h
    · exact hd.1 h.2
    · exact hd.2.1 h.2
    · rw [validateSettings_numbers, hoff] at h
      exact absurd h.1 (by decide)
    · exact hd.2.2 h.2

/-- Claim C3 at a failing input.  With length 4, `lowercase`, `numbers` and `symbols`
ticked, both counts 2 and every draw equal to 0, the base password is `aaaa`, the Symbols
pass writes index 0 twice, the Digits pass writes index 0 twice, and the result `aaa0`
holds no symbol and one digit, fewer than the `min 2 4` of each that the claim (and the
comment on line 136, "Ensure required symbols and numbers are included") calls for. -/
theorem minimum_count_counterexample :
    generatePassword ⟨4, false, true, true, true, 2, 2⟩ (Stream'.const 0) =
        some ⟨"aaa0".toList, ⟨2, .weak⟩⟩ ∧
      ¬ (min 2 4 ≤ "aaa0".toList.countP (fun char => characterSets.symbols.contains char)) ∧
      ¬ (min 2 4 ≤ "aaa0".toList.countP (fun char => characterSets.numbers.contains char)) := by
  decide

/-- Claim C5 (generation cannot fail).  After `validateSettings` some checkbox is ticked, so
the concatenated pool is non-empty and the lowercase fallback is not taken; the two
enforcement passes and the shuffle never make an out-of-range access, whatever string they
are given; and `generatePassword` as a whole makes none, for every form state and every
outcome of the random source. -/
theorem generatePassword_cannot_fail (ui : Settings) (rnd : RandomSource) :
    ((validateSettings ui).uppercase || (validateSettings ui).lowercase ||
      (validateSettings ui).numbers || (validateSettings ui).symbols) = true ∧
    selectedChars (validateSettings ui) ≠ [] ∧
    availableChars (validateSettings ui) = selectedChars (validateSettings ui) ∧
    (∀ (r : RandomSource) (n : Nat) (password : List Char),
      (basePassword (availableChars (validateSettings ui)) n r password).isSome = true) ∧
    (∀ (r : RandomSource) (password : List Char) (requiredCount : Nat),
      (ensureCharacterCount r password characterSets.symbols requiredCount).isSome = true ∧
      (ensureCharacterCount r password characterSets.numbers requiredCount).isSome = true) ∧
    (∀ (r : RandomSource) (str : List Char), (shuffleString r str).isSome = true) ∧
    (generatePassword ui rnd).isSome = true := by
  refine ⟨validateSettings_hasCharacterType ui, selectedChars_validateSettings_ne_nil ui,
    availableChars_validateSettings ui, ?_, ?_, ?_, ?_⟩
  · intro r n password
    obtain ⟨p, hp, -⟩ := basePassword_spec (availableChars_ne_nil (validateSettings ui)) n r
      password
    rw [hp]
    rfl
  · intro r password requiredCount
    obtain ⟨p1, r1, h1, -⟩ :=
      ensureCharacterCount_spec characterSets_symbols_ne_nil r password requiredCount
    obtain ⟨p2, r2, h2, -⟩ :=
      ensureCharacterCount_spec characterSets_numbers_ne_nil r password requiredCount
    rw [h1, h2]
    exact ⟨rfl, rfl⟩
  · intro r str
    obtain ⟨p, hp, -⟩ := shuffleString_spec r str
    rw [hp]
    rfl
  · obtain ⟨final, h, -⟩ := generatePassword_facts ui rnd
    rw [h]
    rfl

/-- Claim C6 (count clamping).  After `validateSettings` the two counts are
`min symbolCount (min length 10)` and `min numberCount (min length 10)`, a count that is
at most `min length 10` is unchanged, and these are the required counts with which the
enforcement part of `generatePassword` calls `ensureCharacterCount`. -/
theorem generatePassword_count_clamping (ui : Settings) (rnd : RandomSource) :
    (validateSettings ui).symbolCount = min ui.symbolCount (min ui.passwordLength 10) ∧
    (validateSettings ui).numberCount = min ui.numberCount (min ui.passwordLength 10) ∧
    (ui.symbolCount ≤ min ui.passwordLength 10 →
      (validateSettings ui).symbolCount = ui.symbolCount) ∧
    (ui.numberCount ≤ min ui.passwordLength 10 →
      (validateSettings ui).numberCount = ui.numberCount) ∧
    (∀ (r : RandomSource) (password : List Char),
      enforceCounts (validateSettings ui) r password =
        match (if ui.symbols && decide (min ui.symbolCount (min ui.passwordLength 10) > 0)
            then ensureCharacterCount r password characterSets.symbols
              (min ui.symbolCount (min ui.passwordLength 10))
            else some (password, r)) with
        | none => none
        | some (password, r) =>
          if ui.numbers && decide (min ui.numberCount (min ui.passwordLength 10) > 0)
          then ensureCharacterCount r password characterSets.numbers
            (min ui.numberCount (min ui.passwordLength 10))
          else some (password, r)) ∧
    ∃ base r1 enforced r2 final r3,
      basePassword (availableChars (validateSettings ui)) ui.passwordLength rnd [] =
        some (base, r1) ∧
      enforceCounts (validateSettings ui) r1 base = some (enforced, r2) ∧
      shuffleString r2 enforced = some (final, r3) ∧
      generatePassword ui rnd = some ⟨final, updateStrengthMeter final⟩ := by
  refine ⟨validateSettings_symbolCount ui, validateSettings_numberCount ui, ?_, ?_, ?_,
    generatePassword_stages ui rnd⟩
  · intro h
    rw [validateSettings_symbolCount]
    omega
  · intro h
    rw [validateSettings_numberCount]
    omega
  · intro r password
    unfold enforceCounts
    simp only [validateSettings_symbolCount, validateSettings_numberCount,
      validateSettings_symbols, validateSettings_numbers]

theorem mem_of_range (c : Char) (lo hi : Nat) (alphabet : List Char)
    (hall : ∀ n, lo ≤ n → n ≤ hi → Char.ofNat n ∈ alphabet)
    (h1 : lo ≤ c.toNat) (h2 : c.toNat ≤ hi) : c ∈ alphabet := by
  rw [← Char.ofNat_toNat c]
  exact hall _ h1 h2

theorem mem_uppercase_iff (c : Char) : c ∈ characterSets.uppercase ↔ 'A' ≤ c ∧ c ≤ 'Z' := by
  constructor
  · revert c
    decide
  · rintro ⟨h1, h2⟩
    rw [Char.le_def] at h1 h2
    refine mem_of_range c 65 90 _ ?_ h1 h2
    intro n hlo hhi
    interval_cases n <;> decide

theorem mem_lowercase_iff (c : Char) : c ∈ characterSets.lowercase ↔ 'a' ≤ c ∧ c ≤ 'z' := by
  constructor
  · revert c
    decide
  · rintro ⟨h1, h2⟩
    rw [Char.le_def] at h1 h2
    refine mem_of_range c 97 122 _ ?_ h1 h2
    intro n hlo hhi
    interval_cases n <;> decide

theorem mem_numbers_iff (c : Char) : c ∈ characterSets.numbers ↔ '0' ≤ c ∧ c ≤ '9' := by
  constructor
  · revert c
    decide
  · rintro ⟨h1, h2⟩
    rw [Char.le_def] at h1 h2
    refine mem_of_range c 48 57 _ ?_ h1 h2
    intro n hlo hhi
    interval_cases n <;> decide

theorem any_contains_iff (alphabet password : List Char) :
    alphabet.any (fun char => password.contains char) = true ↔ ∃ c ∈ password, c ∈ alphabet := by
  simp only [List.any_eq_true, List.contains, List.elem_iff]
  constructor
  · rintro ⟨c, h1, h2⟩
    exact ⟨c, h2, h1⟩
  · rintro ⟨c, h1, h2⟩
    exact ⟨c, h2, h1⟩

theorem any_contains_eq (alphabet password : List Char) (q : Char → Prop) [DecidablePred q]
    (h : ∀ c, c ∈ alphabet ↔ q c) :
    alphabet.any (fun char => password.contains char) = password.any (fun c => decide (q c)) := by
  rw [Bool.eq_iff_iff, any_contains_iff]
  simp only [List.any_eq_true, decide_eq_true_eq, h]

/-- The local `score` of `updateStrengthMeter` as a sum. -/
theorem updateStrengthMeter_score (p : List Char) :
    (updateStrengthMeter p).score =
      (if p.length ≥ 12 then 2 else if p.length ≥ 8 then 1 else 0)
        + (if characterSets.uppercase.any (fun char => p.contains char) then 1 else 0)
        + (if characterSets.lowercase.any (fun char => p.contains char) then 1 else 0)
        + (if characterSets.numbers.any (fun char => p.contains char) then 1 else 0)
        + (if characterSets.symbols.any (fun char => p.contains char) then 1 else 0) := by
  unfold updateStrengthMeter
  generalize characterSets.uppercase.any (fun char => p.contains char) = b1
  generalize characterSets.lowercase.any (fun char => p.contains char) = b2
  generalize characterSets.numbers.any (fun char => p.contains char) = b3
  generalize characterSets.symbols.any (fun char => p.contains char) = b4
  by_cases h12 : p.length ≥ 12 <;> by_cases h8 : p.length ≥ 8 <;>
    cases b1 <;> cases b2 <;> cases b3 <;> cases b4 <;> simp [h12, h8]

theorem updateStrengthMeter_label (p : List Char) :
    (updateStrengthMeter p).strengthText =
      if (updateStrengthMeter p).score ≥ 5 then .veryStrong
      else if (updateStrengthMeter p).score ≥ 4 then .strong
      else if (updateStrengthMeter p).score ≥ 3 then .medium
      else .weak := by
  unfold updateStrengthMeter
  generalize characterSets.uppercase.any (fun char => p.contains char) = b1
  generalize characterSets.lowercase.any (fun char => p.contains char) = b2
  generalize characterSets.numbers.any (fun char => p.contains char) = b3
  generalize characterSets.symbols.any (fun char => p.contains char) = b4
  by_cases h12 : p.length ≥ 12 <;> by_cases h8 : p.length ≥ 8 <;>
    cases b1 <;> cases b2 <;> cases b3 <;> cases b4 <;> simp [h12, h8]

/-- Claim C4 (scorer equals its reference definition).  For every string the `score`
computed by `updateStrengthMeter` is the reference score of the specification, and the
label is Very Strong iff the score is at least 5, Strong iff it is 4, Medium iff it is 3,
Weak iff it is at most 2. -/
theorem updateStrengthMeter_eq_reference (p : List Char) :
    (updateStrengthMeter p).score = referenceScore p ∧
    ((updateStrengthMeter p).strengthText = .veryStrong ↔ referenceScore p ≥ 5) ∧
    ((updateStrengthMeter p).strengthText = .strong ↔ referenceScore p = 4) ∧
    ((updateStrengthMeter p).strengthText = .medium ↔ referenceScore p = 3) ∧
    ((updateStrengthMeter p).strengthText = .weak ↔ referenceScore p ≤ 2) := by
  have hs : (updateStrengthMeter p).score = referenceScore p := by
    rw [updateStrengthMeter_score, referenceScore,
      any_contains_eq _ p _ mem_uppercase_iff, any_contains_eq _ p _ mem_lowercase_iff,
      any_contains_eq _ p _ mem_numbers_iff,
      any_contains_eq characterSets.symbols p (fun c => c ∈ characterSets.symbols)
        (fun _ => Iff.rfl)]
  have hl := updateStrengthMeter_label p
  rw [hs] at hl
  refine ⟨hs, ?_, ?_, ?_, ?_⟩ <;> rw [hl] <;> split_ifs <;>
    simp only [reduceCtorEq, false_iff, true_iff] <;> omega

/-- Claim C7 (shuffle is a permutation).  For every string and every outcome of the random
source (hence every sequence of draws `j` in `[0, i]`), `shuffleString` returns a
rearrangement of its argument: same length and same number of occurrences of every
character. -/
theorem shuffleString_permutation (rnd : RandomSource) (s : List Char) :
    ∃ t r, shuffleString rnd s = some (t, r) ∧ t.Perm s ∧ t.length = s.length ∧
      ∀ c, t.count c = s.count c := by
  obtain ⟨t, ht, hperm⟩ := shuffleString_spec rnd s
  exact ⟨t, _, ht, hperm, hperm.length_eq, fun c => hperm.count_eq c⟩

/-! ### The shuffle as a function of its draws -/

theorem mem_drawSequences_succ (i : Nat) (js : List Nat) :
    js ∈ drawSequences (i + 1) ↔ ∃ j js1, j ≤ i + 1 ∧ js1 ∈ drawSequences i ∧ js = j :: js1 := by
  simp only [drawSequences, List.mem_flatMap, List.mem_range, List.mem_map]
  constructor
  · rintro ⟨j, hj, js1, h1, rfl⟩
    exact ⟨j, js1, by omega, h1, rfl⟩
  · rintro ⟨j, js1, hj, h1, rfl⟩
    exact ⟨j, by omega, js1, h1, rfl⟩

theorem mem_drawSequences_iff :
    ∀ (i : Nat) (js : List Nat), js ∈ drawSequences i ↔
      js.length = i ∧ ∀ k (h : k < js.length), js[k] ≤ i - k := by
  intro i
  induction i with
  | zero =>
    intro js
    simp only [drawSequences, List.mem_singleton]
    constructor
    · rintro rfl
      exact ⟨rfl, fun k h => absurd h (by simp)⟩
    · rintro ⟨h, -⟩
      exact List.length_eq_zero.mp h
  | succ i ih =>
    intro js
    rw [mem_drawSequences_succ]
    constructor
    · rintro ⟨j, js1, hj, h1, rfl⟩
      obtain ⟨hl, hb⟩ := (ih js1).mp h1
      refine ⟨by simp [hl], ?_⟩
      intro k hk
      cases k with
      | zero => simpa using hj
      | succ k =>
        have := hb k (by simpa using hk)
        simp only [List.getElem_cons_succ]
        omega
    · rintro ⟨hl, hb⟩
      cases js with
      | nil => simp at hl
      | cons j js1 =>
        refine ⟨j, js1, ?_, (ih js1).mpr ⟨by simpa using hl, ?_⟩, rfl⟩
        · simpa using hb 0 (by simp)
        · intro k hk
          have := hb (k + 1) (by simpa using hk)
          simp only [List.getElem_cons_succ] at this
          omega

theorem length_drawSequences : ∀ i : Nat, (drawSequences i).length = (i + 1).factorial := by
  intro i
  induction i with
  | zero => rfl
  | succ i ih =>
    rw [drawSequences, List.length_flatMap, Nat.factorial_succ (i + 1)]
    have : (List.length ∘ fun j => (drawSequences i).map (fun js => j :: js)) =
        fun _ => (i + 1).factorial := by
      funext j
      simp [ih]
    rw [this, List.map_const', List.sum_const_nat, List.length_range]

theorem nodup_drawSequences : ∀ i : Nat, (drawSequences i).Nodup := by
  intro i
  induction i with
  | zero => simp [drawSequences]
  | succ i ih =>
    rw [drawSequences, List.nodup_flatMap]
    refine ⟨fun j _ => ih.map (fun a b h => (List.cons.inj h).2), ?_⟩
    refine (List.nodup_range (i + 2)).imp ?_
    intro a b hab l h1 h2
    simp only [List.mem_map] at h1 h2
    obtain ⟨x, -, rfl⟩ := h1
    obtain ⟨y, -, hy⟩ := h2
    exact hab (List.cons.inj hy).1.symm

theorem floorRandom_cons (j : Nat) (js : List Nat) (rnd : RandomSource) {n : Nat} (h : j < n) :
    floorRandom ((j :: js) ++ₛ rnd) n = j := by
  unfold floorRandom
  rw [if_neg (by omega), Stream'.cons_append_stream, Stream'.head_cons]
  exact Nat.mod_eq_of_lt h

theorem tail_cons_append (j : Nat) (js : List Nat) (rnd : RandomSource) :
    Stream'.tail ((j :: js) ++ₛ rnd) = js ++ₛ rnd := by
  rw [Stream'.cons_append_stream, Stream'.tail_cons]

theorem getElem?_swap (a : List Char) (i j k : Nat) (hi : i < a.length) (hj : j < a.length) :
    ((a.set i a[j]).set j a[i])[k]? =
      if k = j then a[i]? else if k = i then a[j]? else a[k]? := by
  rw [List.getElem?_set, List.getElem?_set, List.length_set]
  by_cases h1 : j = k
  · subst h1
    simp [hj, List.getElem?_eq_getElem hi]
  · by_cases h2 : i = k
    · subst h2
      simp [h1, hi, List.getElem?_eq_getElem hj, Ne.symm h1]
    · simp [h1, h2, Ne.symm h1, Ne.symm h2]

theorem shuffleLoop_succ (i : Nat) (rnd : RandomSource) (a : List Char) (j : Nat)
    (hj : floorRandom rnd (i + 1 + 1) = j) (hi : i + 1 < a.length) (hjl : j < a.length) :
    shuffleLoop (i + 1) rnd a =
      shuffleLoop i rnd.tail ((a.set (i + 1) a[j]).set j a[i + 1]) := by
  subst hj
  simp only [shuffleLoop, List.getElem?_eq_getElem hi, List.getElem?_eq_getElem hjl]

theorem shuffleLoop_frame :
    ∀ (i : Nat) (rnd : RandomSource) (a t : List Char) (r : RandomSource),
      (i < a.length ∨ i = 0) → shuffleLoop i rnd a = some (t, r) →
      ∀ k, i < k → t[k]? = a[k]? := by
  intro i
  induction i with
  | zero =>
    intro rnd a t r _ h k _
    simp only [shuffleLoop, Option.some.injEq, Prod.mk.injEq] at h
    rw [h.1]
  | succ i ih =>
    intro rnd a t r hb h k hk
    have hi : i + 1 < a.length := by omega
    have hj := floorRandom_lt rnd (show 0 < i + 1 + 1 by omega)
    have hjl : floorRandom rnd (i + 1 + 1) < a.length := by omega
    rw [shuffleLoop_succ i rnd a _ rfl hi hjl] at h
    rw [ih _ _ _ _ (Or.inl (by rw [List.length_set, List.length_set]; omega)) h k (by omega),
      getElem?_swap a _ _ k hi hjl, if_neg (by omega), if_neg (by omega)]

theorem shuffleLoop_top (i : Nat) (rnd : RandomSource) (a t : List Char) (r : RandomSource)
    (hi : i + 1 < a.length) (h : shuffleLoop (i + 1) rnd a = some (t, r)) :
    t[i + 1]? = a[floorRandom rnd (i + 1 + 1)]? := by
  have hj := floorRandom_lt rnd (show 0 < i + 1 + 1 by omega)
  have hjl : floorRandom rnd (i + 1 + 1) < a.length := by omega
  rw [shuffleLoop_succ i rnd a _ rfl hi hjl] at h
  rw [shuffleLoop_frame _ _ _ _ _ (Or.inl (by rw [List.length_set, List.length_set]; omega)) h
    (i + 1) (by omega), getElem?_swap a _ _ (i + 1) hi hjl]
  split_ifs with he h2
  · rw [← he]
  · rfl
  · exact absurd rfl h2

theorem exists_index_le (a t : List Char) (i : Nat) (ha : a.Nodup) (hperm : t.Perm a)
    (hi : i < a.length) (hfr : ∀ k, i < k → t[k]? = a[k]?) :
    ∃ j, j ≤ i ∧ a[j]? = t[i]? := by
  have hlen : t.length = a.length := hperm.length_eq
  have hit : i < t.length := by omega
  have hmem : t[i] ∈ a := hperm.mem_iff.mp (List.getElem_mem hit)
  obtain ⟨m, hm, hmeq⟩ := List.getElem_of_mem hmem
  by_cases hle : m ≤ i
  · exact ⟨m, hle, by rw [List.getElem?_eq_getElem hm, List.getElem?_eq_getElem hit, hmeq]⟩
  · exfalso
    have hmt : m < t.length := by omega
    have h1 := hfr m (by omega)
    rw [List.getElem?_eq_getElem hm, List.getElem?_eq_getElem hmt, Option.some.injEq] at h1
    have htn : t.Nodup := hperm.nodup_iff.mpr ha
    have : m = i := (htn.getElem_inj_iff).mp (h1.trans hmeq)
    omega

theorem shuffleLoop_draws_injective :
    ∀ (i : Nat) (a : List Char), a.Nodup → (i < a.length ∨ i = 0) →
      ∀ js ∈ drawSequences i, ∀ js2 ∈ drawSequences i,
      ∀ (rnd rnd2 : RandomSource) (t : List Char) (r r2 : RandomSource),
        shuffleLoop i (js ++ₛ rnd) a = some (t, r) →
        shuffleLoop i (js2 ++ₛ rnd2) a = some (t, r2) → js = js2 := by
  intro i
  induction i with
  | zero =>
    intro a _ _ js hjs js2 hjs2 _ _ _ _ _ _ _
    simp only [drawSequences, List.mem_singleton] at hjs hjs2
    rw [hjs, hjs2]
  | succ i ih =>
    intro a ha hb js hjs js2 hjs2 rnd rnd2 t r r2 h h2
    have hi : i + 1 < a.length := by omega
    obtain ⟨j, js1, hj, hjs1, rfl⟩ := (mem_drawSequences_succ i js).mp hjs
    obtain ⟨j2, js3, hj2, hjs3, rfl⟩ := (mem_drawSequences_succ i js2).mp hjs2
    have hf : floorRandom ((j :: js1) ++ₛ rnd) (i + 1 + 1) = j :=
      floorRandom_cons j js1 rnd (by omega)
    have hf2 : floorRandom ((j2 :: js3) ++ₛ rnd2) (i + 1 + 1) = j2 :=
      floorRandom_cons j2 js3 rnd2 (by omega)
    have hjl : j < a.length := by omega
    have hjl2 : j2 < a.length := by omega
    have e := shuffleLoop_top i _ a t r hi h
    have e2 := shuffleLoop_top i _ a t r2 hi h2
    rw [hf] at e
    rw [hf2, e, List.getElem?_eq_getElem hjl, List.getElem?_eq_getElem hjl2,
      Option.some.injEq] at e2
    have hjj : j = j2 := (ha.getElem_inj_iff).mp e2
    subst hjj
    rw [shuffleLoop_succ i _ a j hf hi hjl, tail_cons_append] at h
    rw [shuffleLoop_succ i _ a j hf2 hi hjl, tail_cons_append] at h2
    have hn : ((a.set (i + 1) a[j]).set j a[i + 1]).Nodup :=
      (swap_perm a hi hjl).nodup_iff.mpr ha
    rw [ih _ hn (Or.inl (by rw [List.length_set, List.length_set]; omega)) js1 hjs1 js3 hjs3
      rnd rnd2 t r r2 h h2]

theorem shuffleLoop_draws_surjective :
    ∀ (i : Nat) (a t : List Char), a.Nodup → (i < a.length ∨ i = 0) → t.Perm a →
      (∀ k, i < k → t[k]? = a[k]?) →
      ∃ js ∈ drawSequences i, ∀ rnd : RandomSource,
        shuffleLoop i (js ++ₛ rnd) a = some (t, rnd) := by
  intro i
  induction i with
  | zero =>
    intro a t ha _ hperm hfr
    have hta : t = a := by
      apply List.ext_getElem?
      intro k
      cases k with
      | zero =>
        by_cases h0 : 0 < a.length
        · obtain ⟨j, hj, hje⟩ := exists_index_le a t 0 ha hperm h0 hfr
          have : j = 0 := by omega
          subst this
          exact hje.symm
        · have hl := hperm.length_eq
          rw [List.getElem?_eq_none (by omega), List.getElem?_eq_none (by omega)]
      | succ k => exact hfr (k + 1) (by omega)
    subst hta
    exact ⟨[], by simp [drawSequences], fun rnd => by
      rw [Stream'.nil_append_stream]
      rfl⟩
  | succ i ih =>
    intro a t ha hb hperm hfr
    have hi : i + 1 < a.length := by omega
    obtain ⟨j, hj, hje⟩ := exists_index_le a t (i + 1) ha hperm hi hfr
    have hjl : j < a.length := by omega
    have hsw := swap_perm a hi hjl
    obtain ⟨js1, hjs1, hrun⟩ := ih ((a.set (i + 1) a[j]).set j a[i + 1]) t
      (hsw.nodup_iff.mpr ha) (Or.inl (by rw [List.length_set, List.length_set]; omega))
      (hperm.trans hsw.symm) (by
        intro k hk
        rw [getElem?_swap a _ _ k hi hjl]
        by_cases hk1 : k = i + 1
        · subst hk1
          split_ifs with he h2
          · rw [← hje, ← he]
          · exact hje.symm
          · exact absurd rfl h2
        · rw [if_neg (by omega), if_neg hk1]
          exact hfr k (by omega))
    refine ⟨j :: js1, (mem_drawSequences_succ i _).mpr ⟨j, js1, hj, hjs1, rfl⟩, fun rnd => ?_⟩
    rw [shuffleLoop_succ i _ a j (floorRandom_cons j js1 rnd (by omega)) hi hjl,
      tail_cons_append]
    exact hrun rnd

theorem shuffleString_draws (s : List Char) (js : List Nat)
    (hjs : js ∈ drawSequences (s.length - 1)) (rnd : RandomSource) :
    ∃ t, shuffleString (js ++ₛ rnd) s = some (t, rnd) ∧ t.Perm s := by
  obtain ⟨t, ht, hperm⟩ := shuffleString_spec (js ++ₛ rnd) s
  refine ⟨t, ?_, hperm⟩
  have hl := ((mem_drawSequences_iff _ js).mp hjs).1
  rw [ht, ← hl, Stream'.drop_append_stream]

theorem floorRandom_cons_mod (r : Nat) (rs : List Nat) (rnd : RandomSource) {n : Nat}
    (h : 0 < n) : floorRandom ((r :: rs) ++ₛ rnd) n = r % n := by
  unfold floorRandom
  rw [if_neg (by omega), Stream'.cons_append_stream, Stream'.head_cons]

theorem shuffleLoop_eq_shuffleDraws :
    ∀ (i : Nat) (rnd : RandomSource) (a : List Char), (i < a.length ∨ i = 0) →
      shuffleDraws i rnd ∈ drawSequences i ∧
      shuffleLoop i rnd a = shuffleLoop i (shuffleDraws i rnd ++ₛ rnd.drop i) a := by
  intro i
  induction i with
  | zero =>
    intro rnd a _
    exact ⟨by simp [drawSequences, shuffleDraws], by
      rw [shuffleDraws, Stream'.nil_append_stream]
      rfl⟩
  | succ i ih =>
    intro rnd a hb
    have hi : i + 1 < a.length := by omega
    have hj := floorRandom_lt rnd (show 0 < i + 1 + 1 by omega)
    have hjl : floorRandom rnd (i + 1 + 1) < a.length := by omega
    obtain ⟨hmem, hrun⟩ := ih rnd.tail
      ((a.set (i + 1) a[floorRandom rnd (i + 1 + 1)]).set (floorRandom rnd (i + 1 + 1))
        a[i + 1])
      (Or.inl (by rw [List.length_set, List.length_set]; omega))
    refine ⟨(mem_drawSequences_succ i _).mpr ⟨_, _, by omega, hmem, rfl⟩, ?_⟩
    rw [shuffleDraws, shuffleLoop_succ i rnd a _ rfl hi hjl,
      shuffleLoop_succ i _ a _ (floorRandom_cons _ _ _ hj) hi hjl, tail_cons_append, hrun]
    rfl

theorem eq_of_agree_above_zero (a t : List Char) (ha : a.Nodup) (hperm : t.Perm a)
    (hfr : ∀ k, 0 < k → t[k]? = a[k]?) : t = a := by
  apply List.ext_getElem?
  intro k
  cases k with
  | zero =>
    by_cases h0 : 0 < a.length
    · obtain ⟨j, hj, hje⟩ := exists_index_le a t 0 ha hperm h0 hfr
      have : j = 0 := by omega
      subst this
      exact hje.symm
    · have hl := hperm.length_eq
      rw [List.getElem?_eq_none (by omega), List.getElem?_eq_none (by omega)]
  | succ k => exact hfr (k + 1) (by omega)

theorem sum_map_ite (c : Nat) (q : Nat → Prop) [DecidablePred q] (l : List Nat) :
    (l.map (fun r => if q r then c else 0)).sum = c * l.countP (fun r => decide (q r)) := by
  induction l with
  | nil => simp
  | cons x l ih =>
    rw [List.map_cons, List.sum_cons, ih, List.countP_cons]
    by_cases hq : q x
    · simp only [hq, if_true, decide_True]
      ring
    · simp only [hq, if_false, decide_False, Bool.false_eq_true]
      ring

theorem countP_mod_eq (M m j : Nat) (hm : 0 < m) (hd : m ∣ M) (hj : j < m) :
    (List.range M).countP (fun r => decide (r % m = j)) = M / m := by
  have h := Nat.count_modEq_card M hm j
  rw [Nat.mod_eq_zero_of_dvd hd, if_neg (by omega), Nat.add_zero] at h
  rw [← h, Nat.count]
  apply List.countP_congr
  intro r _
  simp only [decide_eq_true_eq, Nat.ModEq, Nat.mod_eq_of_lt hj]

theorem length_rawSequences (M : Nat) : ∀ k : Nat, (rawSequences M k).length = M ^ k := by
  intro k
  induction k with
  | zero => rfl
  | succ k ih =>
    rw [rawSequences, List.length_flatMap]
    have : (List.length ∘ fun r => (rawSequences M k).map (fun rs => r :: rs)) =
        fun _ => M ^ k := by
      funext r
      simp [ih]
    rw [this, List.map_const', List.sum_const_nat, List.length_range, pow_succ, Nat.mul_comm]

theorem shuffleLoop_raw_count (M : Nat) :
    ∀ (i : Nat) (a t : List Char), a.Nodup → (i < a.length ∨ i = 0) → t.Perm a →
      (∀ k, i < k → t[k]? = a[k]?) → (∀ m, 1 ≤ m → m ≤ i + 1 → m ∣ M) →
      (rawSequences M i).countP (fun rs =>
        decide ((shuffleLoop i (rs ++ₛ Stream'.const 0) a).map Prod.fst = some t))
        * (i + 1).factorial = M ^ i := by
  intro i
  induction i with
  | zero =>
    intro a t ha _ hperm hfr _
    have hta := eq_of_agree_above_zero a t ha hperm hfr
    subst hta
    simp [rawSequences, shuffleLoop]
  | succ i ih =>
    intro a t ha hb hperm hfr hdiv
    have hi : i + 1 < a.length := by omega
    obtain ⟨j, hj, hje⟩ := exists_index_le a t (i + 1) ha hperm hi hfr
    have hjl : j < a.length := by omega
    have hsw := swap_perm a hi hjl
    have hC := ih ((a.set (i + 1) a[j]).set j a[i + 1]) t
      (hsw.nodup_iff.mpr ha) (Or.inl (by rw [List.length_set, List.length_set]; omega))
      (hperm.trans hsw.symm) (by
        intro k hk
        rw [getElem?_swap a _ _ k hi hjl]
        by_cases hk1 : k = i + 1
        · subst hk1
          split_ifs with he h2
          · rw [← hje, ← he]
          · exact hje.symm
          · exact absurd rfl h2
        · rw [if_neg (by omega), if_neg hk1]
          exact hfr k (by omega))
      (fun m h1 h2 => hdiv m h1 (by omega))
    have key : ∀ r ∈ List.range M,
        (List.countP (fun rs =>
            decide ((shuffleLoop (i + 1) (rs ++ₛ Stream'.const 0) a).map Prod.fst = some t)) ∘
          fun r => (rawSequences M i).map (fun rs => r :: rs)) r =
        if r % (i + 1 + 1) = j then
          (rawSequences M i).countP (fun rs =>
            decide ((shuffleLoop i (rs ++ₛ Stream'.const 0)
              ((a.set (i + 1) a[j]).set j a[i + 1])).map Prod.fst = some t))
        else 0 := by
      intro r _
      simp only [Function.comp, List.countP_map]
      split_ifs with hr
      · apply List.countP_congr
        intro rs _
        simp only [Function.comp, decide_eq_true_eq]
        rw [shuffleLoop_succ i _ a j
          (by rw [floorRandom_cons_mod r rs _ (by omega)]; exact hr) hi hjl, tail_cons_append]
      · rw [List.countP_eq_zero]
        intro rs _ hP
        simp only [Function.comp, decide_eq_true_eq, Option.map_eq_some'] at hP
        obtain ⟨⟨t2, r2⟩, hrun, ht2⟩ := hP
        simp only at ht2
        subst ht2
        have htop := shuffleLoop_top i _ a t2 r2 hi hrun
        rw [floorRandom_cons_mod r rs _ (by omega), ← hje] at htop
        have hrl : r % (i + 1 + 1) < a.length := by
          have := Nat.mod_lt r (show 0 < i + 1 + 1 by omega)
          omega
        rw [List.getElem?_eq_getElem hjl, List.getElem?_eq_getElem hrl,
          Option.some.injEq] at htop
        exact hr ((ha.getElem_inj_iff).mp htop).symm
    rw [rawSequences, List.countP_flatMap, List.map_congr_left key, sum_map_ite,
      countP_mod_eq M (i + 1 + 1) j (by omega) (hdiv _ (by omega) (by omega)) (by omega),
      Nat.factorial_succ (i + 1), pow_succ, ← hC]
    have hM := Nat.div_mul_cancel (hdiv (i + 1 + 1) (by omega) (by omega))
    have harith : ∀ C : Nat, C * (M / (i + 1 + 1)) * ((i + 1 + 1) * (i + 1).factorial) =
        C * (i + 1).factorial * M := by
      intro C
      calc C * (M / (i + 1 + 1)) * ((i + 1 + 1) * (i + 1).factorial)
          = C * (i + 1).factorial * (M / (i + 1 + 1) * (i + 1 + 1)) := by ring
        _ = C * (i + 1).factorial * M := by rw [hM]
    exact harith _

theorem getElem?_shuffleDraws :
    ∀ (i : Nat) (rnd : RandomSource) (k : Nat), k < i →
      (shuffleDraws i rnd)[k]? = some (rnd.get k % (i - k + 1)) := by
  intro i
  induction i with
  | zero => intro rnd k hk; omega
  | succ i ih =>
    intro rnd k hk
    cases k with
    | zero =>
      simp only [shuffleDraws, List.getElem?_cons_zero, floorRandom]
      rw [if_neg (by omega)]
      rfl
    | succ k =>
      simp only [shuffleDraws, List.getElem?_cons_succ]
      rw [ih rnd.tail k (by omega), Stream'.get_tail]
      congr 2
      omega

/-- Claim C8 (shuffle is unbiased).  Let `s` have pairwise distinct characters, `n = |s|`,
and let `D` be the list of draw sequences `(j_{n-1}, ..., j_1)` with `0 ≤ j_i ≤ i`.
`D` has `n!` elements.  On every random source the draws the loop makes are the sequence
`shuffleDraws`, whose entry for the loop variable `i` is the raw value reduced modulo
`i + 1`; it lies in `D`, and the output is the output on that sequence.  Each sequence of
`D` yields an ordering of `s`; two that yield the same ordering are equal; every ordering is
yielded by one; so each ordering is the output of exactly one of the `n!` draw sequences, a
fraction `1 / n!`.  Counted on the raw values: when every `m` in `[1, n]` divides `M`, so
that a raw value uniform on `[0, M)` reduces to a uniform draw, each ordering is the output
of exactly `M ^ (n - 1) / n!` of the `M ^ (n - 1)` sequences of `n - 1` raw values. -/
theorem shuffleString_unbiased (s : List Char) (hs : s.Nodup) :
    (drawSequences (s.length - 1)).length = s.length.factorial ∧
    (∀ js, js ∈ drawSequences (s.length - 1) ↔
      js.length = s.length - 1 ∧ ∀ k (h : k < js.length), js[k] ≤ s.length - 1 - k) ∧
    (∀ rnd : RandomSource,
      shuffleDraws (s.length - 1) rnd ∈ drawSequences (s.length - 1) ∧
      (∀ k, k < s.length - 1 →
        (shuffleDraws (s.length - 1) rnd)[k]? = some (rnd.get k % (s.length - 1 - k + 1))) ∧
      shuffleString rnd s =
        shuffleString (shuffleDraws (s.length - 1) rnd ++ₛ rnd.drop (s.length - 1)) s) ∧
    (∀ js ∈ drawSequences (s.length - 1), ∀ rnd : RandomSource,
      ∃ t, shuffleString (js ++ₛ rnd) s = some (t, rnd) ∧ t.Perm s) ∧
    (∀ js ∈ drawSequences (s.length - 1), ∀ js2 ∈ drawSequences (s.length - 1),
      ∀ (rnd rnd2 : RandomSource) (t : List Char) (r r2 : RandomSource),
        shuffleString (js ++ₛ rnd) s = some (t, r) →
        shuffleString (js2 ++ₛ rnd2) s = some (t, r2) → js = js2) ∧
    (∀ t : List Char, t.Perm s → ∃ js ∈ drawSequences (s.length - 1),
      ∀ rnd : RandomSource, shuffleString (js ++ₛ rnd) s = some (t, rnd)) ∧
    (∀ t : List Char, t.Perm s →
      (drawSequences (s.length - 1)).countP (fun js =>
        decide ((shuffleString (js ++ₛ Stream'.const 0) s).map Prod.fst = some t)) = 1 ∧
      (((drawSequences (s.length - 1)).countP (fun js =>
        decide ((shuffleString (js ++ₛ Stream'.const 0) s).map Prod.fst = some t)) : ℚ) /
          ((drawSequences (s.length - 1)).length : ℚ) = 1 / (s.length.factorial : ℚ))) ∧
    (∀ M : Nat, (∀ m, 1 ≤ m → m ≤ s.length → m ∣ M) →
      (rawSequences M (s.length - 1)).length = M ^ (s.length - 1) ∧
      ∀ t : List Char, t.Perm s →
        (rawSequences M (s.length - 1)).countP (fun rs =>
          decide ((shuffleString (rs ++ₛ Stream'.const 0) s).map Prod.fst = some t))
          * s.length.factorial = M ^ (s.length - 1)) := by
  have hb : s.length - 1 < s.length ∨ s.length - 1 = 0 := by omega
  have hfact : (s.length - 1 + 1).factorial = s.length.factorial := by
    cases hs0 : s.length with
    | zero => rfl
    | succ n => rfl
  have hlen : (drawSequences (s.length - 1)).length = s.length.factorial := by
    rw [length_drawSequences, hfact]
  have hinj : ∀ js ∈ drawSequences (s.length - 1), ∀ js2 ∈ drawSequences (s.length - 1),
      ∀ (rnd rnd2 : RandomSource) (t : List Char) (r r2 : RandomSource),
        shuffleString (js ++ₛ rnd) s = some (t, r) →
        shuffleString (js2 ++ₛ rnd2) s = some (t, r2) → js = js2 :=
    fun js hjs js2 hjs2 rnd rnd2 t r r2 h h2 =>
      shuffleLoop_draws_injective _ s hs hb js hjs js2 hjs2 rnd rnd2 t r r2 h h2
  have hframe : ∀ t : List Char, t.Perm s → ∀ k, s.length - 1 < k → t[k]? = s[k]? := by
    intro t hperm k hk
    have hl := hperm.length_eq
    rw [List.getElem?_eq_none (by omega), List.getElem?_eq_none (by omega)]
  have hsurj : ∀ t : List Char, t.Perm s → ∃ js ∈ drawSequences (s.length - 1),
      ∀ rnd : RandomSource, shuffleString (js ++ₛ rnd) s = some (t, rnd) :=
    fun t hperm => shuffleLoop_draws_surjective _ s t hs hb hperm (hframe t hperm)
  have hcount : ∀ t : List Char, t.Perm s →
      (drawSequences (s.length - 1)).countP (fun js =>
        decide ((shuffleString (js ++ₛ Stream'.const 0) s).map Prod.fst = some t)) = 1 := by
    intro t hperm
    obtain ⟨js0, hjs0, hrun⟩ := hsurj t hperm
    refine Eq.trans ?_ (List.count_eq_one_of_mem (nodup_drawSequences _) hjs0)
    unfold List.count
    apply List.countP_congr
    intro js hjs
    simp only [decide_eq_true_eq, beq_iff_eq]
    constructor
    · intro h
      obtain ⟨t2, ht2, -⟩ := shuffleString_draws s js hjs (Stream'.const 0)
      rw [ht2] at h
      simp only [Option.map_some', Option.some.injEq] at h
      subst h
      exact hinj js hjs js0 hjs0 _ _ _ _ _ ht2 (hrun (Stream'.const 0))
    · rintro rfl
      rw [hrun]
      rfl
  refine ⟨hlen, fun js => mem_drawSequences_iff _ js, fun rnd => ?_,
    fun js hjs rnd => shuffleString_draws s js hjs rnd, hinj, hsurj, fun t hperm => ?_,
    fun M hM => ?_⟩
  · obtain ⟨hmem, hrun⟩ := shuffleLoop_eq_shuffleDraws _ rnd s hb
    exact ⟨hmem, fun k hk => getElem?_shuffleDraws _ rnd k hk, hrun⟩
  · refine ⟨hcount t hperm, ?_⟩
    rw [hcount t hperm, hlen]
    simp
  · refine ⟨length_rawSequences M _, fun t hperm => ?_⟩
    rw [← hfact]
    refine shuffleLoop_raw_count M _ s t hs hb hperm (hframe t hperm) (fun m h1 h2 => ?_)
    by_cases h0 : s.length = 0
    · have : m = 1 := by omega
      subst this
      exact one_dvd M
    · exact hM m h1 (by omega)

/-- Claim C8 at the string `abc`: six draw sequences, each of the six orderings is the
output of exactly one of them, and of exactly 6 of the 36 pairs of raw values below 6. -/
theorem shuffleString_unbiased_witness :
    "abc".toList.Nodup ∧ (drawSequences 2).length = 6 ∧
      (∀ t : List Char, t.Perm "abc".toList →
        (drawSequences 2).countP (fun js =>
          decide ((shuffleString (js ++ₛ Stream'.const 0) "abc".toList).map Prod.fst =
            some t)) = 1) ∧
      (rawSequences 6 2).length = 36 ∧
      (∀ t : List Char, t.Perm "abc".toList →
        (rawSequences 6 2).countP (fun rs =>
          decide ((shuffleString (rs ++ₛ Stream'.const 0) "abc".toList).map Prod.fst =
            some t)) * 6 = 36) :=
  have hdiv : ∀ m, 1 ≤ m → m ≤ "abc".toList.length → m ∣ 6 := by
    intro m h1 h2
    have h3 : m ≤ 3 := h2
    interval_cases m <;> decide
  ⟨by decide, (shuffleString_unbiased "abc".toList (by decide)).1,
    fun t ht => ((shuffleString_unbiased "abc".toList (by decide)).2.2.2.2.2.2.1 t ht).1,
    ((shuffleString_unbiased "abc".toList (by decide)).2.2.2.2.2.2.2 6 hdiv).1,
    fun t ht => ((shuffleString_unbiased "abc".toList (by decide)).2.2.2.2.2.2.2 6 hdiv).2 t ht⟩

theorem lowercase_disjoint : ∀ c ∈ characterSets.lowercase,
    c ∉ characterSets.uppercase ∧ c ∉ characterSets.numbers ∧ c ∉ characterSets.symbols := by
  decide

theorem any_contains_false (alphabet password : List Char)
    (h : ∀ c ∈ password, c ∉ alphabet) :
    alphabet.any (fun char => password.contains char) = false := by
  rw [Bool.eq_false_iff]
  intro hc
  obtain ⟨c, hc1, hc2⟩ := (any_contains_iff alphabet password).mp hc
  exact h c hc1 hc2

/-- Claim C9 (lowercase-only scenario).  With only `lowercase` ticked, both counts 0 and
length `n`, every outcome of the random source gives a password of exactly `n` characters,
all of them lowercase letters; when `1 ≤ n < 8` its score is 1 and its label is Weak. -/
theorem generatePassword_lowercase_only (n : Nat) (rnd : RandomSource) :
    ∃ out, generatePassword ⟨n, false, true, false, false, 0, 0⟩ rnd = some out ∧
      out.passwordOutput.length = n ∧
      (∀ c ∈ out.passwordOutput, c ∈ characterSets.lowercase) ∧
      (1 ≤ n → n < 8 →
        out.strength.score = 1 ∧ out.strength.strengthText = StrengthLabel.weak ∧
        updateStrengthMeter out.passwordOutput = ⟨1, StrengthLabel.weak⟩) := by
  obtain ⟨final, h, hlen, hmem, -⟩ :=
    generatePassword_facts ⟨n, false, true, false, false, 0, 0⟩ rnd
  have hv : validateSettings ⟨n, false, true, false, false, 0, 0⟩ =
      ⟨n, false, true, false, false, 0, 0⟩ := by
    simp [validateSettings]
  have hlen : final.length = n := hlen
  have hlow : ∀ c ∈ final, c ∈ characterSets.lowercase := by
    intro c hc
    have := hmem c hc
    rw [hv, mem_selectedChars] at this
    simpa using this
  have hmeter : 1 ≤ n → n < 8 → updateStrengthMeter final = ⟨1, StrengthLabel.weak⟩ := by
    intro h1 h8
    have hscore : (updateStrengthMeter final).score = 1 := by
      have hne : final ≠ [] := by
        intro h0
        rw [h0] at hlen
        simp at hlen
        omega
      obtain ⟨c, hc⟩ := List.exists_mem_of_ne_nil final hne
      rw [updateStrengthMeter_score,
        any_contains_false _ final (fun c hc => (lowercase_disjoint c (hlow c hc)).1),
        any_contains_false _ final (fun c hc => (lowercase_disjoint c (hlow c hc)).2.1),
        any_contains_false _ final (fun c hc => (lowercase_disjoint c (hlow c hc)).2.2),
        (any_contains_iff characterSets.lowercase final).mpr ⟨c, hc, hlow c hc⟩, hlen,
        if_neg (by omega), if_neg (by omega)]
      rfl
    have hlabel := updateStrengthMeter_label final
    rw [hscore] at hlabel
    have : updateStrengthMeter final =
        ⟨(updateStrengthMeter final).score, (updateStrengthMeter final).strengthText⟩ := rfl
    rw [this, hscore, hlabel]
    rfl
  refine ⟨_, h, hlen, hlow, fun h1 h8 => ?_⟩
  have hm := hmeter h1 h8
  simp only [hm, and_self]

/-- Claim C9 at the specification's case: length 4, every draw 0. -/
theorem generatePassword_lowercase_only_witness :
    ∃ out, generatePassword ⟨4, false, true, false, false, 0, 0⟩ (Stream'.const 0) = some out ∧
      out.passwordOutput.length = 4 ∧
      (∀ c ∈ out.passwordOutput, c ∈ characterSets.lowercase) ∧
      out.strength.score = 1 ∧ out.strength.strengthText = StrengthLabel.weak := by
  obtain ⟨out, h, hlen, hlow, hm⟩ := generatePassword_lowercase_only 4 (Stream'.const 0)
  exact ⟨out, h, hlen, hlow, (hm (by decide) (by decide)).1, (hm (by decide) (by decide)).2.1⟩

/-- Claim C10 (degenerate scenario).  With length 0 and no checkbox ticked, whatever the two
counts, `validateSettings` ticks `lowercase` and nothing else, `generatePassword` yields the
empty string for every outcome of the random source, and the empty string has score 0 and
label Weak. -/
theorem generatePassword_degenerate (symbolCount numberCount : Nat) (rnd : RandomSource) :
    (validateSettings ⟨0, false, false, false, false, symbolCount, numberCount⟩).lowercase
        = true ∧
    (validateSettings ⟨0, false, false, false, false, symbolCount, numberCount⟩).uppercase
        = false ∧
    (validateSettings ⟨0, false, false, false, false, symbolCount, numberCount⟩).numbers
        = false ∧
    (validateSettings ⟨0, false, false, false, false, symbolCount, numberCount⟩).symbols
        = false ∧
    availableChars (validateSettings ⟨0, false, false, false, false, symbolCount, numberCount⟩)
        = characterSets.lowercase ∧
    generatePassword ⟨0, false, false, false, false, symbolCount, numberCount⟩ rnd =
      some ⟨[], ⟨0, StrengthLabel.weak⟩⟩ ∧
    updateStrengthMeter [] = ⟨0, StrengthLabel.weak⟩ := by
  have hl := validateSettings_lowercase ⟨0, false, false, false, false, symbolCount, numberCount⟩
  have hu := validateSettings_uppercase ⟨0, false, false, false, false, symbolCount, numberCount⟩
  have hn := validateSettings_numbers ⟨0, false, false, false, false, symbolCount, numberCount⟩
  have hy := validateSettings_symbols ⟨0, false, false, false, false, symbolCount, numberCount⟩
  refine ⟨hl, hu, hn, hy, ?_, ?_, by decide⟩
  · rw [availableChars_validateSettings]
    unfold selectedChars
    rw [hl, hu, hn, hy]
    rfl
  · obtain ⟨final, h, hlen, -⟩ :=
      generatePassword_facts ⟨0, false, false, false, false, symbolCount, numberCount⟩ rnd
    have h0 : final = [] := List.length_eq_zero.mp hlen
    rw [h, h0]
    rfl

/-! ### The Symbols alphabet -/

/-- Claim C12, as stated, fails on the count: the Symbols alphabet of the program has 26
characters, not 22. -/
theorem symbols_length_counterexample :
    characterSets.symbols.length = 26 ∧ characterSets.symbols.length ≠ 22 := by
  decide

/-- Claim C12, amended.  The Symbols alphabet is the fixed punctuation string
`!@#$%^&*()_+-=[]` followed by the two braces and `|;:,.<>?`; it has exactly 26 pairwise
distinct characters; it is the pool of the generator when only `symbols` is ticked, and
each of its characters on its own earns the symbol point of the scorer. -/
theorem symbols_alphabet :
    characterSets.symbols =
      ['!', '@', '#', '$', '%', '^', '&', '*', '(', ')', '_', '+', '-', '=', '[', ']',
        Char.ofNat 123, Char.ofNat 125, '|', ';', ':', ',', '.', '<', '>', '?'] ∧
    characterSets.symbols.length = 26 ∧
    characterSets.symbols.Nodup ∧
    (∀ n symbolCount numberCount : Nat,
      availableChars ⟨n, false, false, false, true, symbolCount, numberCount⟩ =
        characterSets.symbols) ∧
    (∀ c ∈ characterSets.symbols, updateStrengthMeter [c] = ⟨1, StrengthLabel.weak⟩) := by
  refine ⟨by decide, by decide, by decide, fun _ _ _ => rfl, by decide⟩

/-! ### The enforcement step on its own -/

/-- Claim C13 (enforcement can undercount).  On the candidate `aaaa` with the Digits
alphabet, required count 2 and every draw 0, both iterations write index 0: the result is
`0aaa`, which holds one digit, fewer than the 2 required although `2 ≤ 4`. -/
theorem ensureCharacterCount_can_undercount :
    ∃ (candidate characterSet : List Char) (requiredCount : Nat) (rnd : RandomSource)
      (t : List Char),
      candidate = "aaaa".toList ∧ characterSet = characterSets.numbers ∧ requiredCount = 2 ∧
      requiredCount ≤ candidate.length ∧
      floorRandom rnd candidate.length = 0 ∧
      floorRandom rnd.tail.tail candidate.length = 0 ∧
      (ensureCharacterCount rnd candidate characterSet requiredCount).map Prod.fst = some t ∧
      t = "0aaa".toList ∧
      t.countP (fun char => characterSet.contains char) < requiredCount :=
  ⟨"aaaa".toList, characterSets.numbers, 2, Stream'.const 0, "0aaa".toList,
    rfl, rfl, rfl, by decide, by decide, by decide, by decide, rfl, by decide⟩

/-- Claim C15 (enforcement skips a satisfied candidate).  When the candidate already holds
at least `requiredCount` characters of the target alphabet, `ensureCharacterCount` returns
it unchanged together with the untouched random source. -/
theorem ensureCharacterCount_skip (rnd : RandomSource) (password characterSet : List Char)
    (requiredCount : Nat)
    (h : requiredCount ≤ password.countP (fun char => characterSet.contains char)) :
    ensureCharacterCount rnd password characterSet requiredCount = some (password, rnd) := by
  unfold ensureCharacterCount
  simp only [← List.countP_eq_length_filter]
  rw [if_pos h]

/-- Claim C15 at the candidate `a1b2` with the Digits alphabet and required count 2. -/
theorem ensureCharacterCount_skip_witness :
    2 ≤ "a1b2".toList.countP (fun char => characterSets.numbers.contains char) ∧
    ensureCharacterCount (Stream'.const 5) "a1b2".toList characterSets.numbers 2 =
      some ("a1b2".toList, Stream'.const 5) :=
  ⟨by decide, ensureCharacterCount_skip (Stream'.const 5) "a1b2".toList characterSets.numbers 2
    (by decide)⟩

theorem countP_zip_set_le (q : Char × Char → Bool) :
    ∀ (s t : List Char) (i : Nat) (x : Char),
      (List.zip s (t.set i x)).countP q ≤ (List.zip s t).countP q + 1 := by
  intro s
  induction s with
  | nil => intro t i x; simp
  | cons a s ih =>
    intro t i x
    cases t with
    | nil => simp
    | cons b t =>
      cases i with
      | zero =>
        simp only [List.set_cons_zero, List.zip_cons_cons, List.countP_cons]
        split_ifs <;> omega
      | succ i =>
        simp only [List.set_cons_succ, List.zip_cons_cons, List.countP_cons]
        have := ih t i x
        omega

theorem countP_zip_self (s : List Char) :
    (List.zip s s).countP (fun x => x.1 != x.2) = 0 := by
  induction s with
  | nil => rfl
  | cons a s ih => simp [List.countP_cons, ih]

theorem ensureLoop_frame (characterSet : List Char) :
    ∀ (n : Nat) (rnd : RandomSource) (passwordArray p : List Char) (r : RandomSource),
      ensureLoop characterSet n rnd passwordArray = some (p, r) →
      r = rnd.drop (2 * n) ∧
      p.length = passwordArray.length ∧
      p.countP (fun char => characterSet.contains char) ≤
        passwordArray.countP (fun char => characterSet.contains char) + n ∧
      (∀ i : Nat, p[i]? = passwordArray[i]? ∨ ∃ c ∈ characterSet, p[i]? = some c) ∧
      (∀ s : List Char, (List.zip s p).countP (fun x => x.1 != x.2) ≤
        (List.zip s passwordArray).countP (fun x => x.1 != x.2) + n) := by
  intro n
  induction n with
  | zero =>
    intro rnd passwordArray p r h
    simp only [ensureLoop, Option.some.injEq, Prod.mk.injEq] at h
    obtain ⟨rfl, rfl⟩ := h
    exact ⟨rfl, rfl, by omega, fun i => Or.inl rfl, fun s => by omega⟩
  | succ n ih =>
    intro rnd passwordArray p r h
    unfold ensureLoop at h
    simp only [] at h
    split at h
    · exact absurd h (by simp)
    · rename_i randomChar hch
      split_ifs at h with hidx
      obtain ⟨hr, hlen, hcnt, hpos, hdiff⟩ := ih _ _ _ _ h
      have hmem : randomChar ∈ characterSet := List.getElem?_mem hch
      have hset_cnt := List.countP_set (fun char => characterSet.contains char) passwordArray
        (floorRandom rnd passwordArray.length) randomChar hidx
      refine ⟨?_, ?_, ?_, ?_, ?_⟩
      · rw [hr]
        simp only [Stream'.tail_eq_drop, Stream'.drop_drop]
        rfl
      · rw [hlen, List.length_set]
      · have : (if characterSet.contains randomChar = true then 1 else 0) ≤ 1 := by
          split_ifs <;> omega
        omega
      · intro i
        rcases hpos i with h1 | h1
        · rw [List.getElem?_set] at h1
          split_ifs at h1 with he
          · exact Or.inr ⟨randomChar, hmem, h1⟩
          · exact Or.inl h1
        · exact Or.inr h1
      · intro s
        have h1 := hdiff s
        have h2 := countP_zip_set_le (fun x => x.1 != x.2) s passwordArray
          (floorRandom rnd passwordArray.length) randomChar
        omega

theorem ensureCharacterCount_bounds (rnd : RandomSource) (password characterSet : List Char)
    (requiredCount : Nat) (p : List Char) (r : RandomSource)
    (h : ensureCharacterCount rnd password characterSet requiredCount = some (p, r)) :
    p.length = password.length ∧
    p.countP (fun char => characterSet.contains char) ≤
      max (password.countP (fun char => characterSet.contains char)) requiredCount ∧
    (∀ i : Nat, p[i]? = password[i]? ∨ ∃ c ∈ characterSet, p[i]? = some c) ∧
    (List.zip password p).countP (fun x => x.1 != x.2) ≤
      min (requiredCount - password.countP (fun char => characterSet.contains char))
        (password.length - password.countP (fun char => characterSet.contains char)) := by
  unfold ensureCharacterCount at h
  simp only [← List.countP_eq_length_filter] at h
  split_ifs at h with hge
  · simp only [Option.some.injEq, Prod.mk.injEq] at h
    obtain ⟨rfl, rfl⟩ := h
    refine ⟨rfl, le_max_left _ _, fun i => Or.inl rfl, ?_⟩
    rw [countP_zip_self]
    omega
  · obtain ⟨-, hlen, hcnt, hpos, hdiff⟩ := ensureLoop_frame characterSet _ _ _ _ _ h
    have hsum := List.length_eq_countP_add_countP (fun char => characterSet.contains char)
      password
    have he : password.countP (fun a => decide ¬characterSet.contains a = true) =
        password.countP (fun char => !characterSet.contains char) := by
      congr 1
      funext a
      cases characterSet.contains a <;> rfl
    have hd := hdiff password
    rw [countP_zip_self] at hd
    refine ⟨hlen, ?_, hpos, ?_⟩
    · have := le_max_right (password.countP (fun char => characterSet.contains char))
        requiredCount
      omega
    · omega

/-- Claim C14 (frame of the enforcement step).  For every candidate, every non-empty target
alphabet, every required count and every outcome of the random source,
`ensureCharacterCount` returns a string of the same length in which every position holds
either the candidate's character or a character of the target alphabet, and the number of
positions where it differs from the candidate is at most `min (r - c) (|s| - c)`, `c` being
the number of target characters of the candidate (a bound that is 0 when `c ≥ r`). -/
theorem ensureCharacterCount_frame (rnd : RandomSource) (password characterSet : List Char)
    (requiredCount : Nat) (hset : characterSet ≠ []) :
    ∃ t r, ensureCharacterCount rnd password characterSet requiredCount = some (t, r) ∧
      t.length = password.length ∧
      (∀ i : Nat, t[i]? = password[i]? ∨ ∃ c ∈ characterSet, t[i]? = some c) ∧
      (List.zip password t).countP (fun x => x.1 != x.2) ≤
        min (requiredCount - password.countP (fun char => characterSet.contains char))
          (password.length - password.countP (fun char => characterSet.contains char)) ∧
      (requiredCount ≤ password.countP (fun char => characterSet.contains char) →
        (List.zip password t).countP (fun x => x.1 != x.2) = 0) := by
  obtain ⟨t, r, h, -⟩ := ensureCharacterCount_spec hset rnd password requiredCount
  obtain ⟨hlen, -, hpos, hdiff⟩ := ensureCharacterCount_bounds _ _ _ _ _ _ h
  exact ⟨t, r, h, hlen, hpos, hdiff, fun hc => by omega⟩

/-- Claim C14 at the candidate `aaaa`, the Digits alphabet, required count 2 and every
draw 0: the result differs from the candidate in at most 2 positions. -/
theorem ensureCharacterCount_frame_witness :
    characterSets.numbers ≠ [] ∧
    ∃ t r, ensureCharacterCount (Stream'.const 0) "aaaa".toList characterSets.numbers 2 =
        some (t, r) ∧
      t.length = 4 ∧ (List.zip "aaaa".toList t).countP (fun x => x.1 != x.2) ≤ 2 := by
  refine ⟨by decide, ?_⟩
  obtain ⟨t, r, h, hlen, -, hdiff, -⟩ :=
    ensureCharacterCount_frame (Stream'.const 0) "aaaa".toList characterSets.numbers 2
      (by decide)
  exact ⟨t, r, h, hlen, le_trans hdiff (by decide)⟩

/-- Claim C16 (enforcement never lowers and never overshoots).  For every candidate holding
`c` characters of a non-empty target alphabet, every required count `r` and every outcome
of the random source, the string returned by `ensureCharacterCount` holds at least `c` and
at most `max c r` characters of the target alphabet. -/
theorem ensureCharacterCount_count_bounds (rnd : RandomSource)
    (password characterSet : List Char) (requiredCount : Nat) (hset : characterSet ≠ []) :
    ∃ t r, ensureCharacterCount rnd password characterSet requiredCount = some (t, r) ∧
      password.countP (fun char => characterSet.contains char) ≤
        t.countP (fun char => characterSet.contains char) ∧
      t.countP (fun char => characterSet.contains char) ≤
        max (password.countP (fun char => characterSet.contains char)) requiredCount := by
  obtain ⟨t, r, h, -, -, hlow, -⟩ := ensureCharacterCount_spec hset rnd password requiredCount
  obtain ⟨-, hup, -⟩ := ensureCharacterCount_bounds _ _ _ _ _ _ h
  exact ⟨t, r, h, hlow, hup⟩

/-- Claim C16 at the candidate `a1aa`, the Digits alphabet, required count 3 and every
draw 0: the result holds between 1 and 3 digits. -/
theorem ensureCharacterCount_count_bounds_witness :
    characterSets.numbers ≠ [] ∧
    ∃ t r, ensureCharacterCount (Stream'.const 0) "a1aa".toList characterSets.numbers 3 =
        some (t, r) ∧
      1 ≤ t.countP (fun char => characterSets.numbers.contains char) ∧
      t.countP (fun char => characterSets.numbers.contains char) ≤ 3 := by
  refine ⟨by decide, ?_⟩
  obtain ⟨t, r, h, hlow, hup⟩ :=
    ensureCharacterCount_count_bounds (Stream'.const 0) "a1aa".toList characterSets.numbers 3
      (by decide)
  exact ⟨t, r, h, le_trans (by decide) hlow, le_trans hup (by decide)⟩

/-! ### Survival of digits and the rating of the full configuration -/

/-- Claim C17 (at least one digit always survives).  With `numbers` ticked,
`numberCount ≥ 1` and length at least 1, every outcome of the random source gives a password
holding at least one digit.  The same does not hold for Symbols: with length 4, `lowercase`,
`numbers` and `symbols` ticked, both counts 2 and every draw 0, the password `aaa0` holds
no symbol. -/
theorem generatePassword_digit_survives (ui : Settings) (rnd : RandomSource)
    (hn : ui.numbers = true) (hc : 1 ≤ ui.numberCount) (hl : 1 ≤ ui.passwordLength) :
    (∃ out, generatePassword ui rnd = some out ∧
      1 ≤ out.passwordOutput.countP (fun char => characterSets.numbers.contains char)) ∧
    (∃ (ui2 : Settings) (rnd2 : RandomSource) (out2 : Display),
      ui2.symbols = true ∧ 1 ≤ ui2.symbolCount ∧ 1 ≤ ui2.passwordLength ∧
      generatePassword ui2 rnd2 = some out2 ∧
      out2.passwordOutput.countP (fun char => characterSets.symbols.contains char) = 0) := by
  obtain ⟨final, h, -, -, hdig, -⟩ := generatePassword_facts ui rnd
  refine ⟨⟨_, h, hdig hn hc hl⟩, ?_⟩
  exact ⟨⟨4, false, true, true, true, 2, 2⟩, Stream'.const 0, ⟨"aaa0".toList, ⟨2, .weak⟩⟩,
    rfl, by decide, by decide, by decide, by decide⟩

/-- Claim C17 at length 4 with `lowercase`, `numbers` and `symbols` ticked, both counts 2
and every draw 0. -/
theorem generatePassword_digit_survives_witness :
    ∃ out, generatePassword ⟨4, false, true, true, true, 2, 2⟩ (Stream'.const 0) = some out ∧
      1 ≤ out.passwordOutput.countP (fun char => characterSets.numbers.contains char) :=
  (generatePassword_digit_survives ⟨4, false, true, true, true, 2, 2⟩ (Stream'.const 0) rfl
    (by decide) (by decide)).1

theorem ensureCharacterCount_of_le (rnd : RandomSource) (password characterSet : List Char)
    (requiredCount : Nat)
    (h : ¬ password.countP (fun char => characterSet.contains char) < requiredCount) :
    ensureCharacterCount rnd password characterSet requiredCount = some (password, rnd) := by
  unfold ensureCharacterCount
  simp only [← List.countP_eq_length_filter]
  rw [if_pos (by omega)]

theorem exists_not_of_countP_lt (q : Char → Bool) (l : List Char)
    (h : l.countP q < l.length) : ∃ x ∈ l, q x = false := by
  by_contra hne
  have hall : ∀ a ∈ l, q a = true := by
    intro a ha
    by_contra hq
    exact hne ⟨a, ha, by simpa using hq⟩
  have := List.countP_eq_length.mpr hall
  omega

theorem enforceCounts_nondigit (ui : Settings) (rnd : RandomSource) (password : List Char)
    (hs : ui.symbols = true) (hsc : 0 < ui.symbolCount) (hn : ui.numbers = true)
    (hnc : 0 < ui.numberCount) (hlen : ui.numberCount < password.length) :
    ∃ p r, enforceCounts ui rnd password = some (p, r) ∧
      ∃ x ∈ p, x ∉ characterSets.numbers := by
  have hne : password ≠ [] := by
    intro h0
    rw [h0] at hlen
    simp at hlen
  obtain ⟨p1, r1, h1, hlen1, -, -, hpos1⟩ :=
    ensureCharacterCount_spec characterSets_symbols_ne_nil rnd password ui.symbolCount
  obtain ⟨p2, r2, h2, hlen2, -⟩ :=
    ensureCharacterCount_spec characterSets_numbers_ne_nil r1 p1 ui.numberCount
  have henf : enforceCounts ui rnd password = some (p2, r2) := by
    unfold enforceCounts
    simp only [hs, hn, Bool.true_and, decide_eq_true_eq, gt_iff_lt, hsc, hnc, if_true, h1, h2]
  refine ⟨p2, r2, henf, ?_⟩
  by_cases hc : p1.countP (fun char => characterSets.numbers.contains char) < ui.numberCount
  · obtain ⟨-, hup, -⟩ := ensureCharacterCount_bounds _ _ _ _ _ _ h2
    have hlt : p2.countP (fun char => characterSets.numbers.contains char) < p2.length := by
      rw [hlen2, hlen1]
      have := max_le (le_of_lt hc) (le_refl ui.numberCount)
      omega
    obtain ⟨x, hx, hq⟩ := exists_not_of_countP_lt _ p2 hlt
    refine ⟨x, hx, fun hin => ?_⟩
    simp only [List.contains, List.elem_eq_mem, decide_eq_false_iff_not] at hq
    exact hq hin
  · rw [ensureCharacterCount_of_le r1 p1 characterSets.numbers ui.numberCount hc] at h2
    simp only [Option.some.injEq, Prod.mk.injEq] at h2
    obtain ⟨rfl, -⟩ := h2
    have hp := hpos1 hsc hne
    obtain ⟨x, hx, hq⟩ := List.countP_pos_iff.mp hp
    simp only [List.contains, List.elem_eq_mem, decide_eq_true_eq] at hq
    exact ⟨x, hx, (symbols_disjoint x hq).2.2⟩

theorem score_ge_four (final : List Char) (hlen : 12 ≤ final.length)
    (hn : characterSets.numbers.any (fun char => final.contains char) = true)
    (hx : characterSets.uppercase.any (fun char => final.contains char) = true ∨
      characterSets.lowercase.any (fun char => final.contains char) = true ∨
      characterSets.symbols.any (fun char => final.contains char) = true) :
    4 ≤ (updateStrengthMeter final).score := by
  rw [updateStrengthMeter_score, if_pos hlen, hn]
  generalize characterSets.uppercase.any (fun char => final.contains char) = b1 at hx ⊢
  generalize characterSets.lowercase.any (fun char => final.contains char) = b2 at hx ⊢
  generalize characterSets.symbols.any (fun char => final.contains char) = b4 at hx ⊢
  cases b1 <;> cases b2 <;> cases b4 <;> simp at hx ⊢

/-- Claim C18 (worst-case rating of the full configuration).  With length 16, the four
checkboxes ticked and both counts 2, every outcome of the random source gives a password
that holds a digit and a character of another class; its score is at least 4 and its label
is Strong or Very Strong. -/
theorem generatePassword_full_configuration (rnd : RandomSource) :
    ∃ out, generatePassword ⟨16, true, true, true, true, 2, 2⟩ rnd = some out ∧
      (∃ d ∈ out.passwordOutput, d ∈ characterSets.numbers) ∧
      (∃ x ∈ out.passwordOutput, x ∈ characterSets.uppercase ∨
        x ∈ characterSets.lowercase ∨ x ∈ characterSets.symbols) ∧
      4 ≤ out.strength.score ∧
      (out.strength.strengthText = StrengthLabel.strong ∨
        out.strength.strengthText = StrengthLabel.veryStrong) := by
  have hv : validateSettings ⟨16, true, true, true, true, 2, 2⟩ =
      ⟨16, true, true, true, true, 2, 2⟩ := by decide
  obtain ⟨final, hg, hlen, hmem, hdig, -⟩ :=
    generatePassword_facts ⟨16, true, true, true, true, 2, 2⟩ rnd
  obtain ⟨base, r1, enforced, r2, final2, r3, hb, he, hf, hg2⟩ :=
    generatePassword_stages ⟨16, true, true, true, true, 2, 2⟩ rnd
  rw [hv] at hb he hmem
  have hfin : final2 = final := by
    rw [hg] at hg2
    simp only [Option.some.injEq, Display.mk.injEq] at hg2
    exact hg2.1.symm
  subst hfin
  have hbl : base.length = 16 := by
    obtain ⟨p, hp, hpl, -⟩ := basePassword_spec
      (availableChars_ne_nil ⟨16, true, true, true, true, 2, 2⟩) 16 rnd []
    rw [hb] at hp
    simp only [Option.some.injEq, Prod.mk.injEq] at hp
    rw [hp.1, hpl]
    rfl
  have hperm : final2.Perm enforced := by
    obtain ⟨p, hp, hpp⟩ := shuffleString_spec r2 enforced
    rw [hf] at hp
    simp only [Option.some.injEq, Prod.mk.injEq] at hp
    rw [hp.1]
    exact hpp
  have hlen16 : final2.length = 16 := hlen
  obtain ⟨d, hd, hdn⟩ : ∃ d ∈ final2, d ∈ characterSets.numbers := by
    obtain ⟨d, hd, hq⟩ := List.countP_pos_iff.mp (hdig rfl (by decide) (by decide))
    simp only [List.contains, List.elem_eq_mem, decide_eq_true_eq] at hq
    exact ⟨d, hd, hq⟩
  obtain ⟨x, hx, hxc⟩ : ∃ x ∈ final2, x ∈ characterSets.uppercase ∨
      x ∈ characterSets.lowercase ∨ x ∈ characterSets.symbols := by
    obtain ⟨p, r, hp, x, hx, hxn⟩ := enforceCounts_nondigit
      ⟨16, true, true, true, true, 2, 2⟩ r1 base rfl (by decide) rfl (by decide)
      (by rw [hbl]; decide)
    rw [he] at hp
    simp only [Option.some.injEq, Prod.mk.injEq] at hp
    rw [← hp.1] at hx
    have hxf : x ∈ final2 := hperm.mem_iff.mpr hx
    have hcl := (mem_selectedChars _ x).mp (hmem x hxf)
    rcases hcl with h | h | h | h
    · exact ⟨x, hxf, Or.inl h.2⟩
    · exact ⟨x, hxf, Or.inr (Or.inl h.2)⟩
    · exact absurd h.2 hxn
    · exact ⟨x, hxf, Or.inr (Or.inr h.2)⟩
  have hscore : 4 ≤ (updateStrengthMeter final2).score := by
    apply score_ge_four final2 (by omega)
      ((any_contains_iff _ final2).mpr ⟨d, hd, hdn⟩)
    rcases hxc with h | h | h
    · exact Or.inl ((any_contains_iff _ final2).mpr ⟨x, hx, h⟩)
    · exact Or.inr (Or.inl ((any_contains_iff _ final2).mpr ⟨x, hx, h⟩))
    · exact Or.inr (Or.inr ((any_contains_iff _ final2).mpr ⟨x, hx, h⟩))
  refine ⟨_, hg, ⟨d, hd, hdn⟩, ⟨x, hx, hxc⟩, hscore, ?_⟩
  have hl := updateStrengthMeter_label final2
  show (updateStrengthMeter final2).strengthText = StrengthLabel.strong ∨
    (updateStrengthMeter final2).strengthText = StrengthLabel.veryStrong
  rw [hl]
  split_ifs with h5
  · exact Or.inr rfl
  · exact Or.inl rfl

/-! ### The scorer as a function of the string -/

theorem any_contains_congr (alphabet p q : List Char)
    (h : (∃ c ∈ p, c ∈ alphabet) ↔ (∃ c ∈ q, c ∈ alphabet)) :
    alphabet.any (fun char => p.contains char) = alphabet.any (fun char => q.contains char) := by
  rw [Bool.eq_iff_iff, any_contains_iff, any_contains_iff]
  exact h

theorem updateStrengthMeter_eta (p : List Char) :
    updateStrengthMeter p =
      ⟨(updateStrengthMeter p).score,
        if (updateStrengthMeter p).score ≥ 5 then .veryStrong
        else if (updateStrengthMeter p).score ≥ 4 then .strong
        else if (updateStrengthMeter p).score ≥ 3 then .medium
        else .weak⟩ := by
  rw [← updateStrengthMeter_label p]

/-- Claim C11 (the label depends only on length and class coverage).  Two strings of the
same length that hold a character of exactly the same classes among Uppercase, Lowercase,
Digits and Symbols get the same score and the same label from `updateStrengthMeter`. -/
theorem updateStrengthMeter_coverage (p q : List Char) (hlen : p.length = q.length)
    (hu : (∃ c ∈ p, c ∈ characterSets.uppercase) ↔ (∃ c ∈ q, c ∈ characterSets.uppercase))
    (hl : (∃ c ∈ p, c ∈ characterSets.lowercase) ↔ (∃ c ∈ q, c ∈ characterSets.lowercase))
    (hn : (∃ c ∈ p, c ∈ characterSets.numbers) ↔ (∃ c ∈ q, c ∈ characterSets.numbers))
    (hs : (∃ c ∈ p, c ∈ characterSets.symbols) ↔ (∃ c ∈ q, c ∈ characterSets.symbols)) :
    (updateStrengthMeter p).strengthText = (updateStrengthMeter q).strengthText ∧
    (updateStrengthMeter p).score = (updateStrengthMeter q).score ∧
    updateStrengthMeter p = updateStrengthMeter q := by
  have hscore : (updateStrengthMeter p).score = (updateStrengthMeter q).score := by
    rw [updateStrengthMeter_score, updateStrengthMeter_score, hlen,
      any_contains_congr _ p q hu, any_contains_congr _ p q hl, any_contains_congr _ p q hn,
      any_contains_congr _ p q hs]
  have heq : updateStrengthMeter p = updateStrengthMeter q := by
    rw [updateStrengthMeter_eta p, updateStrengthMeter_eta q, hscore]
  exact ⟨congrArg StrengthMeter.strengthText heq, hscore, heq⟩

/-- Claim C11 at the strings `ab1` and `9xy`: same length, both hold lowercase letters and
digits only, same label. -/
theorem updateStrengthMeter_coverage_witness :
    (updateStrengthMeter "ab1".toList).strengthText =
      (updateStrengthMeter "9xy".toList).strengthText :=
  (updateStrengthMeter_coverage "ab1".toList "9xy".toList (by decide) (by decide) (by decide)
    (by decide) (by decide)).1

theorem any_contains_append (alphabet s t : List Char)
    (h : alphabet.any (fun char => s.contains char) = true) :
    alphabet.any (fun char => (s ++ t).contains char) = true := by
  rw [any_contains_iff] at h ⊢
  obtain ⟨c, hc, hca⟩ := h
  exact ⟨c, List.mem_append.mpr (Or.inl hc), hca⟩

theorem point_le_point (b b2 : Bool) (h : b = true → b2 = true) :
    (if b = true then 1 else 0) ≤ (if b2 = true then 1 else 0) := by
  cases b <;> cases b2 <;> simp at h ⊢

theorem labelRank_mono (m n : Nat) (h : m ≤ n) :
    labelRank (if m ≥ 5 then StrengthLabel.veryStrong
      else if m ≥ 4 then StrengthLabel.strong
      else if m ≥ 3 then StrengthLabel.medium
      else StrengthLabel.weak) ≤
    labelRank (if n ≥ 5 then StrengthLabel.veryStrong
      else if n ≥ 4 then StrengthLabel.strong
      else if n ≥ 3 then StrengthLabel.medium
      else StrengthLabel.weak) := by
  split_ifs <;> simp only [labelRank] <;> omega

/-- Claim C19 (the score is monotone under extension).  For all strings `s` and `t` the
score of `s ++ t` is at least the score of `s`, the label of `s ++ t` is not weaker than the
label of `s` in the order Weak, Medium, Strong, Very Strong, and the score of every string
lies between 0 and 6. -/
theorem updateStrengthMeter_monotone (s t : List Char) :
    (updateStrengthMeter s).score ≤ (updateStrengthMeter (s ++ t)).score ∧
    labelRank (updateStrengthMeter s).strengthText ≤
      labelRank (updateStrengthMeter (s ++ t)).strengthText ∧
    0 ≤ (updateStrengthMeter s).score ∧ (updateStrengthMeter s).score ≤ 6 := by
  have hscore : (updateStrengthMeter s).score ≤ (updateStrengthMeter (s ++ t)).score := by
    rw [updateStrengthMeter_score, updateStrengthMeter_score]
    have h1 := point_le_point _ _ (any_contains_append characterSets.uppercase s t)
    have h2 := point_le_point _ _ (any_contains_append characterSets.lowercase s t)
    have h3 := point_le_point _ _ (any_contains_append characterSets.numbers s t)
    have h4 := point_le_point _ _ (any_contains_append characterSets.symbols s t)
    have h0 : (if s.length ≥ 12 then 2 else if s.length ≥ 8 then 1 else 0) ≤
        (if (s ++ t).length ≥ 12 then 2 else if (s ++ t).length ≥ 8 then 1 else 0) := by
      rw [List.length_append]
      split_ifs <;> omega
    exact Nat.add_le_add (Nat.add_le_add (Nat.add_le_add (Nat.add_le_add h0 h1) h2) h3) h4
  have hbound : (updateStrengthMeter s).score ≤ 6 := by
    rw [updateStrengthMeter_score]
    have h0 : (if s.length ≥ 12 then 2 else if s.length ≥ 8 then 1 else 0) ≤ 2 := by
      split_ifs <;> omega
    have hp : ∀ b : Bool, (if b = true then 1 else 0) ≤ 1 := by
      intro b
      cases b <;> simp
    exact Nat.add_le_add (Nat.add_le_add (Nat.add_le_add (Nat.add_le_add h0 (hp _)) (hp _))
      (hp _)) (hp _)
  refine ⟨hscore, ?_, Nat.zero_le _, hbound⟩
  rw [updateStrengthMeter_label s, updateStrengthMeter_label (s ++ t)]
  exact labelRank_mono _ _ hscore

end PasswordGenerator
